import Mathlib

/-!
Verification of the native-variants style engine.

JavaScript runtime values that flow through the engine (variant selections,
style property values, token values) are modeled by the inductive type `JVal`;
the JS value `undefined` is the constructor `JVal.undef`.

JavaScript objects are modeled as insertion-ordered association lists
`List (String × α)`.  Property read is `objLookup` (objects never hold
duplicate keys, so first-match lookup agrees with JS semantics), property
assignment is `objSet` (assigning to an existing key keeps its position,
assigning to a fresh key appends), and object spread `{...a, ...b}` /
`Object.assign(a, b)` is `mergeObj a b`.  An entry whose value is `undefined`
in a configuration table behaves, through the engine's optional chaining,
exactly like an absent entry and is modeled as absent; in selection props,
where `hasOwnProperty` and explicit `!== undefined` tests occur, `undefined`
values are represented explicitly by `JVal.undef`.
-/

namespace NativeVariants

/-- A JavaScript runtime value as used by the engine: strings, (integral)
numbers, booleans, and `undefined`. -/
inductive JVal where
  | str (s : String)
  | num (n : Int)
  | boolean (b : Bool)
  | undef
deriving DecidableEq, Repr

/-- The result of JS `String(v)` on a `JVal`. -/
def jsString : JVal → String
  | .str s => s
  | .num n => toString n
  | .boolean b => if b then "true" else "false"
  | .undef => "undefined"

/-- A style map: property name to value (`Styles` in the source types). -/
abbrev Styles := List (String × JVal)

/-- Per-slot style maps (`Base<S>` / the `css` field of a compound variant). -/
abbrev SlotStyles := List (String × Styles)

instance : DecidableEq Styles := fun a b => instDecidableEqList a b

instance : DecidableEq SlotStyles := fun a b => instDecidableEqList a b

/-- The variants table: axis name, then value label, then per-slot styles
(`Variants<S>` in the source types). -/
abbrev VariantsT := List (String × List (String × SlotStyles))

/-- Variant selection props: axis name to selected value (possibly
`undefined`). -/
abbrev Props := List (String × JVal)

/-- JS object/Map property read (`obj[k]`); `none` models an absent key. -/
def objLookup {κ α : Type} [DecidableEq κ] : List (κ × α) → κ → Option α
  | [], _ => none
  | (k, v) :: rest, key => if k = key then some v else objLookup rest key

/-- JS object/Map property assignment (`obj[k] = v`): an existing key keeps
its position, a fresh key is appended. -/
def objSet {κ α : Type} [DecidableEq κ] : List (κ × α) → κ → α → List (κ × α)
  | [], key, v => [(key, v)]
  | (k, w) :: rest, key, v =>
      if k = key then (k, v) :: rest else (k, w) :: objSet rest key v

/-- JS object spread `{...a, ...b}` (also `Object.assign` into a copy of `a`):
assign every entry of `b` over `a` in order. -/
def mergeObj {κ α : Type} [DecidableEq κ] (a b : List (κ × α)) : List (κ × α) :=
  b.foldl (fun acc kv => objSet acc kv.1 kv.2) a

/-- The value of the last occurrence of a key in an association list (used to
describe `mergeObj` on lists that may hold duplicate keys). -/
def lastOcc {κ α : Type} [DecidableEq κ] : List (κ × α) → κ → Option α
  | [], _ => none
  | (k, v) :: rest, key =>
      match lastOcc rest key with
      | some w => some w
      | none => if k = key then some v else none

/-- Normalization of a variant value for lookup and comparison
(`normalizeVariantValue` in the source): booleans map to `"true"`/`"false"`,
everything else stringifies. -/
def normalizeVariantValue (v : JVal) : String :=
  match v with
  | .boolean b => if b then "true" else "false"
  | _ => jsString v

/-- Applies variant styles to a slot (`applyVariant` in the source): iterate
the variants table in its own key order; for each axis present in the props
with a defined value, look up the per-slot styles of the normalized value and
shallow-merge them over the accumulator. -/
def applyVariant (slot : String) (variants : VariantsT) (props : Props) : Styles :=
  variants.foldl
    (fun style vc =>
      match objLookup props vc.1 with
      | none => style
      | some v =>
        if v = JVal.undef then style
        else
          match objLookup vc.2 (normalizeVariantValue v) with
          | none => style
          | some slotMap =>
            match objLookup slotMap slot with
            | none => style
            | some styleForValue => mergeObj style styleForValue)
    []

/-- A compound variant: a conjunction of axis-value conditions plus per-slot
styles (`CompoundVariant` in the source; an absent `css` is the empty map). -/
structure CompoundV where
  conds : List (String × JVal)
  css : SlotStyles
deriving DecidableEq, Repr

/-- Whether every condition of a compound variant matches the props under
normalized comparison (an absent prop reads as `undefined`). -/
def compoundMatches (cv : CompoundV) (props : Props) : Bool :=
  cv.conds.all fun c =>
    normalizeVariantValue c.2 =
      normalizeVariantValue ((objLookup props c.1).getD JVal.undef)

/-- Applies compound variant styles to a slot (`applyCompound` in the source):
for each compound variant in declaration order whose conditions all match,
shallow-merge its `css[slot]` over the accumulator. -/
def applyCompound (slot : String) (compoundVariants : List CompoundV)
    (props : Props) : Styles :=
  compoundVariants.foldl
    (fun style cv =>
      if compoundMatches cv props then
        match objLookup cv.css slot with
        | some st => mergeObj style st
        | none => style
      else style)
    []

/-- Computes the final styles for a slot (`computeSlotStyles` in the source):
base styles, then variant styles, then compound styles, each tier
shallow-merged over the previous one. -/
def computeSlotStyles (slot : String) (base : SlotStyles) (variants : VariantsT)
    (compoundVariants : List CompoundV) (props : Props) : Styles :=
  let baseStyle := (objLookup base slot).getD []
  let variantStyle := applyVariant slot variants props
  let compoundStyle := applyCompound slot compoundVariants props
  mergeObj (mergeObj baseStyle variantStyle) compoundStyle

/-- Lexicographic code-unit comparison of character lists, the order JS
`Array.prototype.sort` applies to strings with the default comparator. -/
def charListLe : List Char → List Char → Bool
  | [], _ => true
  | _ :: _, [] => false
  | a :: as, b :: bs =>
    if a.toNat < b.toNat then true
    else if b.toNat < a.toNat then false
    else charListLe as bs

/-- Lexicographic string comparison (the JS default sort order). -/
def strLe (a b : String) : Bool :=
  charListLe a.data b.data

/-- Builds a stable cache key from variant props (`createCacheKey` in the
source): sort the prop keys lexicographically, then concatenate
`k:String(v);` for every key with a defined value; empty input or an
all-undefined input yields `"{}"`. -/
def createCacheKey (props : Option Props) : String :=
  match props with
  | none => "\x7b\x7d"
  | some ps =>
    if ps.length = 0 then "\x7b\x7d"
    else
      let keys := List.insertionSort (fun a b => strLe a b = true) (ps.map Prod.fst)
      let key := keys.foldl
        (fun acc k =>
          match objLookup ps k with
          | some v =>
            if v ≠ JVal.undef then acc ++ k ++ ":" ++ jsString v ++ ";" else acc
          | none => acc)
        ""
      if key = "" then "\x7b\x7d" else key

/-- A utils (macro) table: shorthand name to expansion function
(`UtilsConfig` in the source). -/
abbrev Utils := List (String × (JVal → Styles))

/-- Expands utils in one style map (`expandUtils` in the source): for each
key in input order, a key naming a util is expanded by invoking the util with
the value and `Object.assign`-ing its result; any other key/value is copied
unchanged.  Expansion is non-recursive. -/
def expandUtils (style : Option Styles) (utils : Utils) : Styles :=
  match style with
  | none => []
  | some s =>
    s.foldl
      (fun result kv =>
        match objLookup utils kv.1 with
        | some utilFn => mergeObj result (utilFn kv.2)
        | none => objSet result kv.1 kv.2)
      []

/-- Expands utils in every slot of a base styles object (`expandBaseUtils`). -/
def expandBaseUtils (base : Option SlotStyles) (utils : Utils) : SlotStyles :=
  match base with
  | none => []
  | some b => b.foldl (fun result kv => objSet result kv.1 (expandUtils (some kv.2) utils)) []

/-- Expands utils throughout a variants table (`expandVariantsUtils`). -/
def expandVariantsUtils (variants : Option VariantsT) (utils : Utils) : VariantsT :=
  match variants with
  | none => []
  | some vs =>
    vs.foldl
      (fun result vkv =>
        objSet result vkv.1
          (vkv.2.foldl
            (fun inner valkv =>
              objSet inner valkv.1
                (valkv.2.foldl
                  (fun slots skv => objSet slots skv.1 (expandUtils (some skv.2) utils))
                  []))
            []))
      []

/-- Expands utils in the `css` of every compound variant
(`expandCompoundUtils`). -/
def expandCompoundUtils (compoundVariants : Option (List CompoundV))
    (utils : Utils) : List CompoundV :=
  match compoundVariants with
  | none => []
  | some cvs =>
    cvs.map fun cv =>
      { conds := cv.conds
        css := cv.css.foldl (fun result kv => objSet result kv.1 (expandUtils (some kv.2) utils)) [] }

/-- The expansion of a single style entry: a util key is replaced by the
util's output, any other entry passes through as a singleton. -/
def expandEntry (utils : Utils) (kv : String × JVal) : Styles :=
  match objLookup utils kv.1 with
  | some utilFn => utilFn kv.2
  | none => [kv]

/-- The resolved theme object as seen by a configuration factory: a flattened
`colors` table plus the remaining token categories (which the engine passes
through untouched when applying a per-invocation color override). -/
structure RTheme where
  colors : List (String × JVal)
  tokens : List (String × List (String × JVal))
deriving DecidableEq, Repr

/-- A styled-component configuration, after destructuring with defaults
(`Config` in the source: absent `base`, `variants`, `defaultVariants`,
`compoundVariants` default to empty structures). -/
structure ConfigU where
  slots : List String
  base : SlotStyles
  variants : VariantsT
  defaultVariants : List (String × JVal)
  compoundVariants : List CompoundV

/-- What was passed to `styled`: either a static configuration or a theme
factory evaluated against the resolved theme. -/
inductive ConfigSrc where
  | static (c : ConfigU)
  | factory (f : RTheme → ConfigU)

/-- The per-declaration data captured by the closure `styled` returns: the
utils-expanded configuration pieces, the frozen slot list, and the original
config-or-factory for re-evaluation under a theme override. -/
structure DeclData where
  slots : List String
  base : SlotStyles
  variants : VariantsT
  defaultVariants : List (String × JVal)
  compoundVariants : List CompoundV
  src : ConfigSrc

/-- Builds the declaration data the way `styled` does: evaluate a factory
against the default resolved theme, then expand utils in base, variants and
compound variants, and freeze the slot list. -/
def mkDecl (resolvedTheme : RTheme) (utils : Utils) (src : ConfigSrc) : DeclData :=
  let cfg := match src with
    | .static c => c
    | .factory f => f resolvedTheme
  { slots := cfg.slots
    base := expandBaseUtils (some cfg.base) utils
    variants := expandVariantsUtils (some cfg.variants) utils
    defaultVariants := cfg.defaultVariants
    compoundVariants := expandCompoundUtils (some cfg.compoundVariants) utils
    src := src }

/-- A per-invocation color-map override object.  `oid` models the JS object
identity under which the `WeakMap` cache partitions it. -/
structure OverrideObj where
  oid : Nat
  colors : List (String × JVal)
deriving DecidableEq, Repr

/-- The props object accepted by a declaration's `computeStyles`, after the
destructuring `const { theme: themeOverride, ...variantProps } = props ?? {}`:
an optional color-map override plus the variant selections. -/
structure PropsRec where
  theme : Option OverrideObj
  vars : Props
deriving DecidableEq, Repr

/-- A cache partition: normalized selection key to computed style map. -/
abbrev Cache := List (String × SlotStyles)

instance : DecidableEq Cache := fun a b => instDecidableEqList a b

instance : DecidableEq (List (Nat × Cache)) := fun a b => instDecidableEqList a b

/-- The mutable caches owned by one declaration: its partition of the
instance cache (string-keyed) and its theme-override cache (keyed by override
object identity). -/
structure DeclState where
  instCache : Cache
  themeCache : List (Nat × Cache)
deriving DecidableEq, Repr

/-- A declaration state with empty caches. -/
def DeclState.empty : DeclState := { instCache := [], themeCache := [] }

/-- Resolves selections against defaults (source lines 920-932): copy the
defaults, then write every provided key whose value is defined. -/
def resolveProps (defaultVariants : List (String × JVal)) (props : Props) :
    List (String × JVal) :=
  props.foldl
    (fun acc kv => if kv.2 ≠ JVal.undef then objSet acc kv.1 kv.2 else acc)
    defaultVariants

/-- Resolves selections against defaults on the theme-override path (source
lines 873-885); the extra `key !== "theme"` guard of the source is kept. -/
def resolvePropsOverride (defaultVariants : List (String × JVal)) (props : Props) :
    List (String × JVal) :=
  props.foldl
    (fun acc kv =>
      if kv.2 ≠ JVal.undef ∧ kv.1 ≠ "theme" then objSet acc kv.1 kv.2 else acc)
    defaultVariants

/-- Computes the per-slot result map by iterating the frozen slot list and
assigning each slot's computed styles (source lines 887-899 and 934-946). -/
def slotResults (slots : List String) (base : SlotStyles) (variants : VariantsT)
    (compoundVariants : List CompoundV) (resolvedProps : Props) : SlotStyles :=
  slots.foldl
    (fun result slot =>
      objSet result slot (computeSlotStyles slot base variants compoundVariants resolvedProps))
    []

/-- The uncached computation a declaration performs on an instance-cache miss:
resolve the selections against the declaration's defaults and compute every
slot from its expanded configuration. -/
def uncachedCompute (d : DeclData) (variantProps : Props) : SlotStyles :=
  slotResults d.slots d.base d.variants d.compoundVariants
    (resolveProps d.defaultVariants variantProps)

/-- The full recomputation the theme-override path performs: re-evaluate the
factory against the resolved theme with its `colors` replaced by the override,
re-expand utils, re-resolve the selections against the recomputed defaults,
and compute every slot (using the declaration's frozen slot list). -/
def overrideRecompute (resolvedTheme : RTheme) (utils : Utils) (slots : List String)
    (f : RTheme → ConfigU) (ov : OverrideObj) (variantProps : Props) : SlotStyles :=
  let overriddenTheme : RTheme := { resolvedTheme with colors := ov.colors }
  let recomputedConfig := f overriddenTheme
  let recomputedBase := expandBaseUtils (some recomputedConfig.base) utils
  let recomputedVariants := expandVariantsUtils (some recomputedConfig.variants) utils
  let recomputedCompoundVariants :=
    expandCompoundUtils (some recomputedConfig.compoundVariants) utils
  let resolvedProps := resolvePropsOverride recomputedConfig.defaultVariants variantProps
  slotResults slots recomputedBase recomputedVariants recomputedCompoundVariants resolvedProps

/-- One invocation of the function returned by `createNVA`'s `styled` (source
lines 838-956): destructure the optional theme override; if an override is
supplied and the declaration is a factory, serve from (or fill) the
theme-override cache after re-evaluating the factory against the overridden
theme; otherwise serve from (or fill) the declaration's instance-cache
partition. -/
def computeStylesF (resolvedTheme : RTheme) (utils : Utils) (d : DeclData)
    (st : DeclState) (props : Option PropsRec) : SlotStyles × DeclState :=
  let pr := props.getD { theme := none, vars := [] }
  let variantProps := pr.vars
  match pr.theme, d.src with
  | some ov, .factory f =>
    let cacheKey := createCacheKey (some variantProps)
    let themeCachePart := objLookup st.themeCache ov.oid
    match themeCachePart.bind (fun part => objLookup part cacheKey) with
    | some cached => (cached, st)
    | none =>
      let result := overrideRecompute resolvedTheme utils d.slots f ov variantProps
      let part := themeCachePart.getD []
      (result, { st with themeCache := objSet st.themeCache ov.oid (objSet part cacheKey result) })
  | _, _ =>
    let cacheKey := createCacheKey (some variantProps)
    match objLookup st.instCache cacheKey with
    | some cached => (cached, st)
    | none =>
      let result := uncachedCompute d variantProps
      (result, { st with instCache := objSet st.instCache cacheKey result })

/-- The module-level cache state: the string-keyed `primitiveCache` plus the
identity-keyed per-declaration partitions (the entries of `instanceCache` and
of every declaration's `themeOverrideCache`, keyed by declaration
identity). -/
structure EngineState where
  primitiveCache : Cache
  decls : List (Nat × DeclState)

/-- One invocation routed through the engine state: runs the declaration's
`computeStyles` on its own partition; the `primitiveCache` is not consulted
or written. -/
def engineComputeStyles (resolvedTheme : RTheme) (utils : Utils) (d : DeclData)
    (declId : Nat) (st : EngineState) (props : Option PropsRec) :
    SlotStyles × EngineState :=
  let part := (objLookup st.decls declId).getD DeclState.empty
  let res := computeStylesF resolvedTheme utils d part props
  (res.1, { st with decls := objSet st.decls declId res.2 })

/-- Clears all style caches (`clearStyleCache` in the source): only the
string-keyed `primitiveCache` is cleared; the identity-keyed partitions are
left for garbage collection. -/
def clearStyleCache (st : EngineState) : EngineState :=
  { st with primitiveCache := [] }

/-- Concatenation of a list of strings. -/
def strJoin (L : List String) : String :=
  L.foldl (fun a b => a ++ b) ""

/-- The cache-key fragment contributed by one prop key: `k:String(v);` when
the key holds a defined value, empty otherwise. -/
def entryStr (ps : Props) (k : String) : String :=
  match objLookup ps k with
  | some v => if v ≠ JVal.undef then k ++ ":" ++ jsString v ++ ";" else ""
  | none => ""

/-- Whether a key holds a defined value in a props object. -/
def definedIn (ps : Props) (k : String) : Bool :=
  match objLookup ps k with
  | some v => decide (v ≠ JVal.undef)
  | none => false

/-- The canonical form of the cache key body: the defined keys in sorted
order, each contributing its `k:String(v);` fragment. -/
def keyString (p : Props) : String :=
  strJoin
    (((List.insertionSort (fun a b => strLe a b = true) (p.map Prod.fst)).filter
      (definedIn p)).map (entryStr p))

/-- The contribution of one variant axis to a slot under given props: the
per-slot styles of the normalized selected value, or empty when the axis is
unselected, selected as `undefined`, or has no styles for the value/slot. -/
def variantChunk (slot : String) (props : Props)
    (vc : String × List (String × SlotStyles)) : Styles :=
  match objLookup props vc.1 with
  | none => []
  | some v =>
    if v = JVal.undef then []
    else
      match objLookup vc.2 (normalizeVariantValue v) with
      | none => []
      | some slotMap => (objLookup slotMap slot).getD []

/-- The contribution of one compound variant to a slot under given props:
its `css[slot]` when all conditions match, empty otherwise. -/
def compoundChunk (slot : String) (props : Props) (cv : CompoundV) : Styles :=
  if compoundMatches cv props then (objLookup cv.css slot).getD [] else []

/-- The selection-equivalence used for boolean normalization: two values have
the same definedness and the same JS string form. -/
def selEquiv (v w : JVal) : Prop :=
  (v = JVal.undef ↔ w = JVal.undef) ∧ jsString v = jsString w

/-- Selection-equivalence of prop entries: equal keys, equivalent values. -/
def entryEquiv (a b : String × JVal) : Prop :=
  a.1 = b.1 ∧ selEquiv a.2 b.2

/-- Replaces a boolean selection value by its string label, leaving other
values unchanged. -/
def boolAsString : JVal → JVal
  | .boolean b => .str (if b then "true" else "false")
  | v => v

/-- Selection-equivalence lifted to optional lookup results. -/
def selEquivO : Option JVal → Option JVal → Prop
  | none, none => True
  | some v, some w => selEquiv v w
  | _, _ => False

/-- The entries of a props object that carry a defined value. -/
def definedProps (p : Props) : Props :=
  p.filter fun kv => kv.2 ≠ JVal.undef

/-- Coherence of a declaration's instance-cache partition: every cached entry
is the uncached computation of some selections producing its key. -/
def CacheInv (d : DeclData) (st : DeclState) : Prop :=
  ∀ k r, objLookup st.instCache k = some r →
    ∃ p, createCacheKey (some p) = k ∧ uncachedCompute d p = r

/-- Collision-freedom of the cache key for a declaration: selections that
build the same cache key compute the same styles. -/
def KeyDeterminesResult (d : DeclData) : Prop :=
  ∀ p q, createCacheKey (some p) = createCacheKey (some q) →
    uncachedCompute d p = uncachedCompute d q

/-- The slot invariant of a declaration's caches: every cached style map has
exactly the declaration's slots as its keys. -/
def SlotsInv (d : DeclData) (st : DeclState) : Prop :=
  (∀ k r, objLookup st.instCache k = some r → r.map Prod.fst = d.slots) ∧
  (∀ i part, objLookup st.themeCache i = some part →
    ∀ k r, objLookup part k = some r → r.map Prod.fst = d.slots)

/-! ### Concrete fixtures used to exercise the theorems below -/

/-- A small resolved theme used by concrete instantiations. -/
def sampleTheme : RTheme :=
  { colors := [("primary", .str "#3b82f6"), ("background", .str "#ffffff")]
    tokens := [("spacing", [("md", .num 16)])] }

/-- A small variants table: a `size` axis and a boolean `square` axis. -/
def sampleVariants : VariantsT :=
  [("size",
    [("sm", [("root", [("padding", .num 8)])]),
     ("lg", [("root", [("padding", .num 24)])])]),
   ("square",
    [("true", [("root", [("width", .num 48), ("height", .num 48)])])])]

/-- A small configuration exercising base, variants, defaults and compounds. -/
def sampleConfigU : ConfigU :=
  { slots := ["root"]
    base := [("root", [("padding", .num 16), ("color", .str "red")])]
    variants := sampleVariants
    defaultVariants := [("size", .str "sm")]
    compoundVariants :=
      [{ conds := [("size", .str "lg"), ("square", .boolean true)]
         css := [("root", [("width", .num 64), ("height", .num 64)])] }] }

/-- The declaration data of `sampleConfigU` under no utils. -/
def sampleDecl : DeclData :=
  { slots := sampleConfigU.slots
    base := sampleConfigU.base
    variants := sampleConfigU.variants
    defaultVariants := sampleConfigU.defaultVariants
    compoundVariants := sampleConfigU.compoundVariants
    src := ConfigSrc.static sampleConfigU }

/-- A configuration whose `b` axis styles collide with a crafted selection
value containing the cache-key delimiters. -/
def collideConfigU : ConfigU :=
  { slots := ["root"]
    base := []
    variants := [("b", [("y", [("root", [("color", .str "red")])])])]
    defaultVariants := []
    compoundVariants := [] }

/-- The declaration data of `collideConfigU` under no utils. -/
def collideDecl : DeclData :=
  { slots := collideConfigU.slots
    base := collideConfigU.base
    variants := collideConfigU.variants
    defaultVariants := collideConfigU.defaultVariants
    compoundVariants := collideConfigU.compoundVariants
    src := ConfigSrc.static collideConfigU }

/-- A configuration with no variants and no compounds: its computation does
not depend on the selections. -/
def constConfigU : ConfigU :=
  { slots := ["root"]
    base := [("root", [("padding", .num 16)])]
    variants := []
    defaultVariants := []
    compoundVariants := [] }

/-- The declaration data of `constConfigU` under no utils. -/
def constDecl : DeclData :=
  { slots := constConfigU.slots
    base := constConfigU.base
    variants := constConfigU.variants
    defaultVariants := constConfigU.defaultVariants
    compoundVariants := constConfigU.compoundVariants
    src := ConfigSrc.static constConfigU }

/-- A small utils table with padding and size shorthands. -/
def pxUtils : Utils :=
  [("px", fun v => [("paddingLeft", v), ("paddingRight", v)]),
   ("size", fun v => [("width", v), ("height", v)])]

/-- A theme factory whose base styles read the theme's `primary` color. -/
def sampleFactory (t : RTheme) : ConfigU :=
  { slots := ["root"]
    base := [("root",
      [("backgroundColor", (objLookup t.colors "primary").getD (JVal.str "none"))])]
    variants := []
    defaultVariants := []
    compoundVariants := [] }

/-- The declaration data obtained from declaring `sampleFactory` against
`sampleTheme` with no utils. -/
def factoryDecl : DeclData :=
  mkDecl sampleTheme [] (ConfigSrc.factory sampleFactory)

/-- A cached per-slot result used by the engine-state fixtures. -/
def sampleCachedResult : SlotStyles :=
  [("root", [("padding", .num 8)])]

/-- An engine state holding a stale primitive-cache entry and one populated
declaration partition whose instance cache already holds the key of the
selections `{size: "lg"}`. -/
def sampleEngineState : EngineState :=
  { primitiveCache := [("stale", [("root", [])])]
    decls := [(5, { instCache := [("size:lg;", sampleCachedResult)], themeCache := [] })] }

/-! ### Theme merging (`createNVA`, source lines 629-743) -/

/-- A token table of a theme category. -/
abbrev Table := List (String × JVal)

/-- One entry of the `colors` input: a standalone color string or a nested
light/dark color map. -/
inductive CIn where
  | cstr (s : String)
  | cmap (m : Table)
deriving DecidableEq, Repr

/-- The `colors` field of the theme input: either a flat color map (all
entries strings) or a structured `{light, dark?, ...standalone}` object. -/
abbrev ColorsIn := List (String × CIn)

/-- Detects structured colors input (`isStructuredColors`): the object has a
`light` key. -/
def isStructuredColors (c : ColorsIn) : Bool :=
  (c.map Prod.fst).contains "light"

/-- Extracts standalone colors (`extractStandaloneColors`): top-level string
entries other than `light` and `dark`, in iteration order. -/
def extractStandaloneColors (c : ColorsIn) : Table :=
  c.foldl
    (fun acc kv =>
      match kv.2 with
      | .cstr s =>
        if kv.1 ≠ "light" ∧ kv.1 ≠ "dark" then objSet acc kv.1 (JVal.str s) else acc
      | .cmap _ => acc)
    []

/-- The nested `light` color map of a structured colors input (empty when
absent or not a map, which the source's types rule out). -/
def lightColors (c : ColorsIn) : Table :=
  match objLookup c "light" with
  | some (.cmap m) => m
  | _ => []

/-- A flat colors input read as a color map (the source casts it; non-string
entries are ruled out by its types). -/
def flatColors (c : ColorsIn) : Table :=
  c.foldl
    (fun acc kv =>
      match kv.2 with
      | .cstr s => objSet acc kv.1 (JVal.str s)
      | .cmap _ => acc)
    []

/-- The user colors extracted from the theme input (source lines 653-682):
structured input contributes `{...light, ...standalone}`, flat input is used
as-is, absent input is empty. -/
def userColors (colors : Option ColorsIn) : Table :=
  match colors with
  | none => []
  | some c =>
    if isStructuredColors c then mergeObj (lightColors c) (extractStandaloneColors c)
    else flatColors c

/-- The built-in default token tables (`defaultTokens` in the source; the
concrete Tailwind data lives outside the engine, so the tables are
parameters here). -/
structure DefaultTables where
  palette : Table
  spacing : Table
  fontSizes : Table
  radii : Table
  shadows : Table
  zIndex : Table
  opacity : Table
  lineHeights : Table
  fontWeights : Table
  letterSpacing : Table
  borderWidths : Table
  durations : Table

/-- The theme input object passed to `createNVA`: the `colors` key (modeled
apart because its shape differs) and the remaining keys in iteration order,
each holding a token table. -/
structure ThemeInputM where
  colors : Option ColorsIn
  rest : List (String × Table)

/-- The key set the source treats specially when spreading custom tokens
(source line 738). -/
def knownKeys : List String :=
  ["colors", "spacing", "fontSizes", "radii", "shadows", "zIndex", "opacity",
   "lineHeights", "fontWeights", "letterSpacing", "borderWidths", "durations"]

/-- The known token categories other than `colors`. -/
def catNames : List String :=
  ["spacing", "fontSizes", "radii", "shadows", "zIndex", "opacity",
   "lineHeights", "fontWeights", "letterSpacing", "borderWidths", "durations"]

/-- The default table of a known category. -/
def defCat (d : DefaultTables) : String → Table
  | "spacing" => d.spacing
  | "fontSizes" => d.fontSizes
  | "radii" => d.radii
  | "shadows" => d.shadows
  | "zIndex" => d.zIndex
  | "opacity" => d.opacity
  | "lineHeights" => d.lineHeights
  | "fontWeights" => d.fontWeights
  | "letterSpacing" => d.letterSpacing
  | "borderWidths" => d.borderWidths
  | "durations" => d.durations
  | _ => []

/-- The user-supplied table of a known category (`inputTheme?.cat ?? {}`). -/
def userCat (input : Option ThemeInputM) (c : String) : Table :=
  (input.bind fun t => objLookup t.rest c).getD []

/-- The resolved theme (source lines 723-743) as an ordered object: the
flattened colors, each known category merged default-then-user, then every
custom key passed through verbatim. -/
def resolvedThemeM (d : DefaultTables) (input : Option ThemeInputM) :
    List (String × Table) :=
  [("colors", mergeObj d.palette (userColors (input.bind fun t => t.colors))),
   ("spacing", mergeObj d.spacing (userCat input "spacing")),
   ("fontSizes", mergeObj d.fontSizes (userCat input "fontSizes")),
   ("radii", mergeObj d.radii (userCat input "radii")),
   ("shadows", mergeObj d.shadows (userCat input "shadows")),
   ("zIndex", mergeObj d.zIndex (userCat input "zIndex")),
   ("opacity", mergeObj d.opacity (userCat input "opacity")),
   ("lineHeights", mergeObj d.lineHeights (userCat input "lineHeights")),
   ("fontWeights", mergeObj d.fontWeights (userCat input "fontWeights")),
   ("letterSpacing", mergeObj d.letterSpacing (userCat input "letterSpacing")),
   ("borderWidths", mergeObj d.borderWidths (userCat input "borderWidths")),
   ("durations", mergeObj d.durations (userCat input "durations"))]
  ++ ((input.map fun t => t.rest).getD []).filter fun kv => ¬ knownKeys.contains kv.1

/-- Default token tables used by concrete instantiations. -/
def sampleDefaults : DefaultTables :=
  { palette := [("blue500", .str "#3b82f6")]
    spacing := [("4", .num 16), ("md", .num 12)]
    fontSizes := [("base", .num 14), ("lg", .num 18)]
    radii := [("lg", .num 8)]
    shadows := []
    zIndex := [("10", .num 10)]
    opacity := []
    lineHeights := []
    fontWeights := [("bold", .str "700")]
    letterSpacing := []
    borderWidths := [("2", .num 2)]
    durations := [("150", .num 150)] }

/-- A theme input overriding one spacing token and adding a custom
`breakpoints` token group. -/
def sampleInput : ThemeInputM :=
  { colors := some [("primary", .cstr "#000")]
    rest := [("spacing", [("md", .num 16)]),
             ("breakpoints", [("sm", .num 640), ("md", .num 768)])] }

/-! ### Association-list lemmas -/

section AList

variable {κ α : Type} [DecidableEq κ]

theorem objLookup_objSet (m : List (κ × α)) (k key : κ) (v : α) :
    objLookup (objSet m k v) key = if k = key then some v else objLookup m key := by
  induction m with
  | nil => by_cases h : k = key <;> simp [objSet, objLookup, h]
  | cons hd tl ih =>
    obtain ⟨k1, w⟩ := hd
    by_cases h1 : k1 = k
    · subst h1
      by_cases h2 : k1 = key <;> simp [objSet, objLookup, h2]
    · by_cases h2 : k1 = key
      · subst h2
        have hk : ¬ k = k1 := fun h => h1 h.symm
        simp [objSet, objLookup, h1, hk]
      · simp [objSet, objLookup, h1, h2, ih]

theorem objLookup_eq_none_iff (m : List (κ × α)) (k : κ) :
    objLookup m k = none ↔ k ∉ m.map Prod.fst := by
  induction m with
  | nil => simp [objLookup]
  | cons hd tl ih =>
    obtain ⟨k1, w⟩ := hd
    by_cases h : k1 = k
    · subst h; simp [objLookup]
    · have hne : k ≠ k1 := fun hh => h hh.symm
      simp [objLookup, h, ih, hne]

theorem keys_objSet (m : List (κ × α)) (k : κ) (v : α) :
    (objSet m k v).map Prod.fst =
      if k ∈ m.map Prod.fst then m.map Prod.fst else m.map Prod.fst ++ [k] := by
  induction m with
  | nil => simp [objSet]
  | cons hd tl ih =>
    obtain ⟨k1, w⟩ := hd
    by_cases h : k1 = k
    · subst h; simp [objSet]
    · have hk : ¬ k = k1 := fun hh => h hh.symm
      by_cases h2 : k ∈ tl.map Prod.fst <;> simp [objSet, h, hk, h2, ih]

theorem nodupKeys_objSet {m : List (κ × α)} (h : (m.map Prod.fst).Nodup)
    (k : κ) (v : α) : ((objSet m k v).map Prod.fst).Nodup := by
  rw [keys_objSet]
  by_cases hk : k ∈ m.map Prod.fst
  · simpa [hk]
  · simpa [hk, ← List.concat_eq_append] using h.concat hk

theorem mergeObj_nil_right (a : List (κ × α)) : mergeObj a [] = a := rfl

theorem mergeObj_cons (a : List (κ × α)) (k : κ) (v : α) (b : List (κ × α)) :
    mergeObj a ((k, v) :: b) = mergeObj (objSet a k v) b := rfl

theorem objLookup_mergeObj (a b : List (κ × α)) (key : κ) :
    objLookup (mergeObj a b) key =
      match lastOcc b key with
      | some v => some v
      | none => objLookup a key := by
  induction b generalizing a with
  | nil => simp [mergeObj, lastOcc]
  | cons hd tl ih =>
    obtain ⟨k, v⟩ := hd
    rw [mergeObj_cons, ih]
    show _ = (match (match lastOcc tl key with
        | some w => some w
        | none => if k = key then some v else none) with
      | some w => some w
      | none => objLookup a key)
    cases h : lastOcc tl key with
    | some w => simp
    | none =>
      by_cases hk : k = key <;> simp [objLookup_objSet, hk]

theorem nodupKeys_mergeObj {a : List (κ × α)} (h : (a.map Prod.fst).Nodup)
    (b : List (κ × α)) : ((mergeObj a b).map Prod.fst).Nodup := by
  induction b generalizing a with
  | nil => exact h
  | cons hd tl ih => exact ih (nodupKeys_objSet h hd.1 hd.2)

theorem lastOcc_eq_objLookup {m : List (κ × α)} (h : (m.map Prod.fst).Nodup)
    (k : κ) : lastOcc m k = objLookup m k := by
  induction m with
  | nil => rfl
  | cons hd tl ih =>
    obtain ⟨k1, v⟩ := hd
    simp only [List.map_cons, List.nodup_cons] at h
    by_cases hk : k1 = k
    · subst hk
      have : objLookup tl k1 = none := (objLookup_eq_none_iff tl k1).2 h.1
      rw [show lastOcc ((k1, v) :: tl) k1 = (match lastOcc tl k1 with
          | some w => some w
          | none => if k1 = k1 then some v else none) from rfl]
      rw [ih h.2, this]
      simp [objLookup]
    · rw [show lastOcc ((k1, v) :: tl) k = (match lastOcc tl k with
          | some w => some w
          | none => if k1 = k then some v else none) from rfl]
      rw [ih h.2]
      cases hl : objLookup tl k <;> simp [objLookup, hk, hl]

theorem objLookup_mergeObj_of_nodup (a : List (κ × α)) {b : List (κ × α)}
    (h : (b.map Prod.fst).Nodup) (key : κ) :
    objLookup (mergeObj a b) key =
      match objLookup b key with
      | some v => some v
      | none => objLookup a key := by
  rw [objLookup_mergeObj, lastOcc_eq_objLookup h]

theorem objLookup_mem {m : List (κ × α)} {k : κ} {v : α}
    (h : objLookup m k = some v) : (k, v) ∈ m := by
  induction m with
  | nil => simp [objLookup] at h
  | cons hd tl ih =>
    obtain ⟨k1, w⟩ := hd
    by_cases hk : k1 = k
    · subst hk
      have hv : w = v := by simpa [objLookup] using h
      subst hv
      exact List.mem_cons_self _ _
    · have h2 : objLookup tl k = some v := by simpa [objLookup, hk] using h
      exact List.mem_cons_of_mem _ (ih h2)

theorem objLookup_of_mem {m : List (κ × α)} (hn : (m.map Prod.fst).Nodup)
    {k : κ} {v : α} (h : (k, v) ∈ m) : objLookup m k = some v := by
  induction m with
  | nil => simp at h
  | cons hd tl ih =>
    obtain ⟨k1, w⟩ := hd
    simp only [List.map_cons, List.nodup_cons] at hn
    rcases List.mem_cons.1 h with h1 | h1
    · injection h1 with h1a h1b
      subst h1a
      subst h1b
      simp [objLookup]
    · have hne : k1 ≠ k := by
        rintro rfl
        exact hn.1 (List.mem_map.2 ⟨(k1, v), h1, rfl⟩)
      simp [objLookup, hne, ih hn.2 h1]

theorem objSet_lookup_self {m : List (κ × α)} {k : κ} {v : α}
    (h : objLookup m k = some v) : objSet m k v = m := by
  induction m with
  | nil => simp [objLookup] at h
  | cons hd tl ih =>
    obtain ⟨k1, w⟩ := hd
    by_cases hk : k1 = k
    · subst hk
      have hv : w = v := by simpa [objLookup] using h
      subst hv
      simp [objSet]
    · have h2 : objLookup tl k = some v := by simpa [objLookup, hk] using h
      simp [objSet, hk, ih h2]

theorem objLookup_filter {m : List (κ × α)} {P : κ × α → Bool} {k : κ}
    (h : ∀ kv ∈ m, kv.1 = k → P kv = true) :
    objLookup (m.filter P) k = objLookup m k := by
  induction m with
  | nil => rfl
  | cons hd tl ih =>
    obtain ⟨k1, w⟩ := hd
    by_cases hk : k1 = k
    · subst hk
      rw [List.filter_cons, if_pos (h (k1, w) (List.mem_cons_self _ _) rfl)]
      simp [objLookup]
    · have ih2 := ih fun kv hm hkk => h kv (List.mem_cons_of_mem _ hm) hkk
      rw [List.filter_cons]
      by_cases hp : P (k1, w) <;> simp [hp, objLookup, hk, ih2]

end AList

/-! ### Merge-fold lemmas and the slot resolver (C1) -/

theorem mergeObj_append {κ α : Type} [DecidableEq κ] (a b c : List (κ × α)) :
    mergeObj a (b ++ c) = mergeObj (mergeObj a b) c :=
  List.foldl_append _ _ _ _

theorem foldl_merge_chunk {β : Type} (chunk : β → Styles) (L : List β)
    {acc : Styles} (h : (acc.map Prod.fst).Nodup) :
    ((L.foldl (fun s x => mergeObj s (chunk x)) acc).map Prod.fst).Nodup := by
  induction L generalizing acc with
  | nil => exact h
  | cons x L ih => exact ih (nodupKeys_mergeObj h (chunk x))

theorem applyVariant_eq_chunks (slot : String) (variants : VariantsT) (props : Props) :
    applyVariant slot variants props =
      variants.foldl (fun s vc => mergeObj s (variantChunk slot props vc)) [] := by
  unfold applyVariant
  congr 1
  funext s vc
  unfold variantChunk
  cases h1 : objLookup props vc.1 with
  | none => simp [mergeObj_nil_right]
  | some v =>
    by_cases hu : v = JVal.undef
    · simp [hu, mergeObj_nil_right]
    · simp only [hu, ite_false]
      cases h2 : objLookup vc.2 (normalizeVariantValue v) with
      | none => simp [mergeObj_nil_right]
      | some slotMap =>
        cases h3 : objLookup slotMap slot with
        | none => simp [h3, mergeObj_nil_right]
        | some st => simp [h3]

theorem applyCompound_eq_chunks (slot : String) (cvs : List CompoundV) (props : Props) :
    applyCompound slot cvs props =
      cvs.foldl (fun s cv => mergeObj s (compoundChunk slot props cv)) [] := by
  unfold applyCompound
  congr 1
  funext s cv
  unfold compoundChunk
  by_cases hm : compoundMatches cv props
  · simp only [hm, ite_true]
    cases h1 : objLookup cv.css slot with
    | none => simp [h1, mergeObj_nil_right]
    | some st => simp [h1]
  · simp [hm, mergeObj_nil_right]

theorem nodupKeys_applyVariant (slot : String) (variants : VariantsT) (props : Props) :
    ((applyVariant slot variants props).map Prod.fst).Nodup := by
  rw [applyVariant_eq_chunks]
  exact foldl_merge_chunk _ _ List.nodup_nil

theorem nodupKeys_applyCompound (slot : String) (cvs : List CompoundV) (props : Props) :
    ((applyCompound slot cvs props).map Prod.fst).Nodup := by
  rw [applyCompound_eq_chunks]
  exact foldl_merge_chunk _ _ List.nodup_nil

theorem objLookup_computeSlotStyles (slot : String) (base : SlotStyles)
    (variants : VariantsT) (cvs : List CompoundV) (props : Props) (key : String) :
    objLookup (computeSlotStyles slot base variants cvs props) key =
      match objLookup (applyCompound slot cvs props) key with
      | some v => some v
      | none =>
        match objLookup (applyVariant slot variants props) key with
        | some v => some v
        | none => objLookup ((objLookup base slot).getD []) key := by
  simp only [computeSlotStyles]
  rw [objLookup_mergeObj_of_nodup _ (nodupKeys_applyCompound slot cvs props),
    objLookup_mergeObj_of_nodup _ (nodupKeys_applyVariant slot variants props)]
  cases objLookup (applyCompound slot cvs props) key <;>
    cases objLookup (applyVariant slot variants props) key <;> rfl

/-- C1: for every configuration slot and resolved selections, the computed
slot style map is `base[slot]` shallow-merged with the per-axis variant
contributions, folded in the variants table's key order (later axes
overwriting earlier ones), shallow-merged with the `css[slot]` contribution
of every compound variant whose conditions all match, folded in declaration
order; consequently, on a shared property key, a matching compound's value
wins over any variant-axis value, which wins over the base value. -/
theorem claim_C1 (slot : String) (base : SlotStyles) (variants : VariantsT)
    (cvs : List CompoundV) (props : Props) :
    computeSlotStyles slot base variants cvs props =
      mergeObj (mergeObj ((objLookup base slot).getD [])
        (applyVariant slot variants props)) (applyCompound slot cvs props)
    ∧ applyVariant slot variants props =
        variants.foldl (fun s vc => mergeObj s (variantChunk slot props vc)) []
    ∧ applyCompound slot cvs props =
        cvs.foldl (fun s cv => mergeObj s (compoundChunk slot props cv)) []
    ∧ ∀ key, objLookup (computeSlotStyles slot base variants cvs props) key =
        match objLookup (applyCompound slot cvs props) key with
        | some v => some v
        | none =>
          match objLookup (applyVariant slot variants props) key with
          | some v => some v
          | none => objLookup ((objLookup base slot).getD []) key :=
  ⟨rfl, applyVariant_eq_chunks slot variants props,
    applyCompound_eq_chunks slot cvs props,
    objLookup_computeSlotStyles slot base variants cvs props⟩

/-! ### Order properties of the cache-key sort -/

theorem charListLe_cons_iff (a b : Char) (as bs : List Char) :
    charListLe (a :: as) (b :: bs) = true ↔
      a.toNat < b.toNat ∨ (a.toNat = b.toNat ∧ charListLe as bs = true) := by
  by_cases h1 : a.toNat < b.toNat
  · simp [charListLe, h1]
  · by_cases h2 : b.toNat < a.toNat
    · have h3 : ¬ a.toNat = b.toNat := by omega
      simp [charListLe, h1, h2, h3]
    · have he : a.toNat = b.toNat := by omega
      simp [charListLe, h1, h2, he]

theorem charListLe_total : ∀ as bs : List Char,
    charListLe as bs = true ∨ charListLe bs as = true := by
  intro as
  induction as with
  | nil => intro bs; left; rfl
  | cons a as ih =>
    intro bs
    cases bs with
    | nil => right; rfl
    | cons b bs =>
      rcases Nat.lt_trichotomy a.toNat b.toNat with h | h | h
      · left; exact (charListLe_cons_iff a b as bs).2 (Or.inl h)
      · rcases ih bs with hh | hh
        · left; exact (charListLe_cons_iff a b as bs).2 (Or.inr ⟨h, hh⟩)
        · right; exact (charListLe_cons_iff b a bs as).2 (Or.inr ⟨h.symm, hh⟩)
      · right; exact (charListLe_cons_iff b a bs as).2 (Or.inl h)

theorem charListLe_trans : ∀ as bs cs : List Char,
    charListLe as bs = true → charListLe bs cs = true → charListLe as cs = true := by
  intro as
  induction as with
  | nil => intro bs cs _ _; rfl
  | cons a as ih =>
    intro bs cs h1 h2
    cases bs with
    | nil => cases h1
    | cons b bs =>
      cases cs with
      | nil => cases h2
      | cons c cs =>
        rcases (charListLe_cons_iff a b as bs).1 h1 with hab | ⟨hab, hab2⟩ <;>
          rcases (charListLe_cons_iff b c bs cs).1 h2 with hbc | ⟨hbc, hbc2⟩
        · exact (charListLe_cons_iff a c as cs).2 (Or.inl (by omega))
        · exact (charListLe_cons_iff a c as cs).2 (Or.inl (by omega))
        · exact (charListLe_cons_iff a c as cs).2 (Or.inl (by omega))
        · exact (charListLe_cons_iff a c as cs).2 (Or.inr ⟨by omega, ih bs cs hab2 hbc2⟩)

theorem charListLe_antisymm : ∀ as bs : List Char,
    charListLe as bs = true → charListLe bs as = true → as = bs := by
  intro as
  induction as with
  | nil =>
    intro bs _ h2
    cases bs with
    | nil => rfl
    | cons b bs => cases h2
  | cons a as ih =>
    intro bs h1 h2
    cases bs with
    | nil => cases h1
    | cons b bs =>
      rcases (charListLe_cons_iff a b as bs).1 h1 with hab | ⟨hab, hab2⟩ <;>
        rcases (charListLe_cons_iff b a bs as).1 h2 with hba | ⟨hba, hba2⟩
      · omega
      · omega
      · omega
      · have hc : a = b := Char.ext (UInt32.ext hab)
        rw [hc, ih bs hab2 hba2]

instance : IsTotal String fun a b => strLe a b = true :=
  ⟨fun a b => charListLe_total a.data b.data⟩

instance : IsTrans String fun a b => strLe a b = true :=
  ⟨fun a b c => charListLe_trans a.data b.data c.data⟩

theorem String.data_eq_imp {a b : String} (h : a.data = b.data) : a = b := by
  cases a; cases b; exact congrArg String.mk h

instance : IsAntisymm String fun a b => strLe a b = true :=
  ⟨fun a b h1 h2 => String.data_eq_imp (charListLe_antisymm a.data b.data h1 h2)⟩

/-! ### Cache-key canonicalization and congruence -/

theorem strJoin_aux (L : List String) : ∀ s : String,
    L.foldl (fun a b => a ++ b) s = s ++ strJoin L := by
  induction L with
  | nil => intro s; exact (String.append_empty s).symm
  | cons x L ih =>
    intro s
    show L.foldl _ (s ++ x) = _
    rw [ih (s ++ x)]
    have hx : strJoin (x :: L) = x ++ strJoin L := by
      show L.foldl _ ("" ++ x) = _
      rw [String.empty_append, ih x]
    rw [hx, String.append_assoc]

theorem strJoin_cons (x : String) (L : List String) :
    strJoin (x :: L) = x ++ strJoin L := by
  show L.foldl _ ("" ++ x) = _
  rw [String.empty_append, strJoin_aux L x]

theorem createKey_step (ps : Props) (s k : String) :
    (match objLookup ps k with
      | some v => if v ≠ JVal.undef then s ++ k ++ ":" ++ jsString v ++ ";" else s
      | none => s) = s ++ entryStr ps k := by
  unfold entryStr
  cases h : objLookup ps k with
  | none => exact (String.append_empty s).symm
  | some v =>
    by_cases hv : v = JVal.undef
    · simp only [hv, ne_eq, not_true_eq_false, ite_false]
      exact (String.append_empty s).symm
    · have hv2 : (v ≠ JVal.undef) := hv
      simp only [ne_eq, hv, not_false_eq_true, ite_true]
      simp [String.append_assoc]

theorem createKey_foldl (ps : Props) (L : List String) : ∀ s : String,
    L.foldl
      (fun acc k =>
        match objLookup ps k with
        | some v => if v ≠ JVal.undef then acc ++ k ++ ":" ++ jsString v ++ ";" else acc
        | none => acc)
      s = s ++ strJoin (L.map (entryStr ps)) := by
  induction L with
  | nil => intro s; exact (String.append_empty s).symm
  | cons k L ih =>
    intro s
    rw [List.foldl_cons, createKey_step ps s k, ih (s ++ entryStr ps k),
      List.map_cons, strJoin_cons, String.append_assoc]

theorem entryStr_of_not_defined {ps : Props} {k : String}
    (h : definedIn ps k = false) : entryStr ps k = "" := by
  unfold definedIn at h
  unfold entryStr
  cases hh : objLookup ps k with
  | none => rfl
  | some v =>
    rw [hh] at h
    have hv : v = JVal.undef := by simpa using h
    simp [hv]

theorem strJoin_map_filter (f : String → String) (p : String → Bool) :
    ∀ L : List String, (∀ k ∈ L, p k = false → f k = "") →
      strJoin (L.map f) = strJoin ((L.filter p).map f) := by
  intro L
  induction L with
  | nil => intro _; rfl
  | cons k L ih =>
    intro h
    have hL := ih fun k0 hk0 => h k0 (List.mem_cons_of_mem _ hk0)
    rw [List.map_cons, strJoin_cons]
    cases hp : p k with
    | false =>
      rw [h k (List.mem_cons_self _ _) hp, String.empty_append, hL]
      simp [List.filter_cons, hp]
    | true =>
      rw [hL]
      simp [List.filter_cons, hp, strJoin_cons]

theorem createCacheKey_eq_keyString (p : Props) :
    createCacheKey (some p) = if keyString p = "" then "\x7b\x7d" else keyString p := by
  cases p with
  | nil =>
    have h1 : keyString [] = "" := rfl
    rw [h1]
    rfl
  | cons hd tl =>
    simp only [createCacheKey]
    rw [if_neg (by simp : ¬ (hd :: tl).length = 0)]
    rw [createKey_foldl (hd :: tl) _ "", String.empty_append,
      strJoin_map_filter (entryStr (hd :: tl)) (definedIn (hd :: tl)) _
        (fun k _ hk => entryStr_of_not_defined hk)]
    rfl

theorem definedIn_iff_mem_definedProps {p : Props} (hp : (p.map Prod.fst).Nodup)
    (k : String) : definedIn p k = true ↔ ∃ v, (k, v) ∈ definedProps p := by
  unfold definedIn
  cases hh : objLookup p k with
  | none =>
    simp only [Bool.false_eq_true, false_iff]
    rintro ⟨v, hv⟩
    have h1 : (k, v) ∈ p := (List.mem_filter.1 hv).1
    rw [objLookup_of_mem hp h1] at hh
    cases hh
  | some v =>
    simp only [decide_eq_true_eq]
    constructor
    · intro hv
      exact ⟨v, List.mem_filter.2 ⟨objLookup_mem hh, by simpa using hv⟩⟩
    · rintro ⟨w, hw⟩
      obtain ⟨hw1, hw2⟩ := List.mem_filter.1 hw
      have := objLookup_of_mem hp hw1
      rw [hh] at this
      cases this
      simpa using hw2

theorem lookup_defined_congr {p q : Props} (hq : (q.map Prod.fst).Nodup)
    (hpq : List.Perm (definedProps p) (definedProps q)) {k : String} {v : JVal}
    (h : objLookup p k = some v) (hv : v ≠ JVal.undef) :
    objLookup q k = some v := by
  have h1 : (k, v) ∈ definedProps p :=
    List.mem_filter.2 ⟨objLookup_mem h, by simpa using hv⟩
  have h2 : (k, v) ∈ definedProps q := hpq.mem_iff.1 h1
  exact objLookup_of_mem hq (List.mem_filter.1 h2).1

theorem definedIn_congr {p q : Props} (hp : (p.map Prod.fst).Nodup)
    (hq : (q.map Prod.fst).Nodup)
    (hpq : List.Perm (definedProps p) (definedProps q)) (k : String) :
    definedIn p k = definedIn q k := by
  cases hdq : definedIn q k with
  | true =>
    obtain ⟨v, hv⟩ := (definedIn_iff_mem_definedProps hq k).1 hdq
    exact (definedIn_iff_mem_definedProps hp k).2 ⟨v, hpq.mem_iff.2 hv⟩
  | false =>
    cases hdp : definedIn p k with
    | false => rfl
    | true =>
      obtain ⟨v, hv⟩ := (definedIn_iff_mem_definedProps hp k).1 hdp
      rw [(definedIn_iff_mem_definedProps hq k).2 ⟨v, hpq.mem_iff.1 hv⟩] at hdq
      cases hdq

theorem entryStr_congr {p q : Props} (hq : (q.map Prod.fst).Nodup)
    (hpq : List.Perm (definedProps p) (definedProps q)) {k : String}
    (hk : definedIn p k = true) : entryStr p k = entryStr q k := by
  unfold definedIn at hk
  unfold entryStr
  cases hh : objLookup p k with
  | none => rw [hh] at hk; cases hk
  | some v =>
    rw [hh] at hk
    have hv : v ≠ JVal.undef := by simpa using hk
    rw [lookup_defined_congr hq hpq hh hv]

theorem keyString_congr {p q : Props} (hp : (p.map Prod.fst).Nodup)
    (hq : (q.map Prod.fst).Nodup)
    (hpq : List.Perm (definedProps p) (definedProps q)) :
    keyString p = keyString q := by
  unfold keyString
  set r := fun a b : String => strLe a b = true with hr
  set Lp := (List.insertionSort r (p.map Prod.fst)).filter (definedIn p) with hLp
  set Lq := (List.insertionSort r (q.map Prod.fst)).filter (definedIn q) with hLq
  have hsp : Lp.Sorted r := (List.sorted_insertionSort r _).filter _
  have hsq : Lq.Sorted r := (List.sorted_insertionSort r _).filter _
  have hnp : Lp.Nodup := ((List.perm_insertionSort r _).symm.nodup hp).filter _
  have hnq : Lq.Nodup := ((List.perm_insertionSort r _).symm.nodup hq).filter _
  have hmemp : ∀ k, k ∈ Lp ↔ definedIn p k = true := by
    intro k
    rw [hLp, List.mem_filter, List.mem_insertionSort]
    constructor
    · exact fun h => h.2
    · intro h
      refine ⟨?_, h⟩
      obtain ⟨v, hv⟩ := (definedIn_iff_mem_definedProps hp k).1 h
      exact List.mem_map.2 ⟨(k, v), (List.mem_filter.1 hv).1, rfl⟩
  have hmemq : ∀ k, k ∈ Lq ↔ definedIn q k = true := by
    intro k
    rw [hLq, List.mem_filter, List.mem_insertionSort]
    constructor
    · exact fun h => h.2
    · intro h
      refine ⟨?_, h⟩
      obtain ⟨v, hv⟩ := (definedIn_iff_mem_definedProps hq k).1 h
      exact List.mem_map.2 ⟨(k, v), (List.mem_filter.1 hv).1, rfl⟩
  have hLpq : Lp = Lq := by
    refine List.eq_of_perm_of_sorted ?_ hsp hsq
    refine (List.perm_ext_iff_of_nodup hnp hnq).2 fun k => ?_
    rw [hmemp k, hmemq k, definedIn_congr hp hq hpq k]
  rw [hLpq]
  refine congrArg strJoin (List.map_congr_left fun k hk => ?_)
  have hdk : definedIn p k = true := by
    rw [definedIn_congr hp hq hpq k]
    exact (hmemq k).1 hk
  exact entryStr_congr hq hpq hdk

theorem createCacheKey_congr {p q : Props} (hp : (p.map Prod.fst).Nodup)
    (hq : (q.map Prod.fst).Nodup)
    (hpq : List.Perm (definedProps p) (definedProps q)) :
    createCacheKey (some p) = createCacheKey (some q) := by
  rw [createCacheKey_eq_keyString p, createCacheKey_eq_keyString q,
    keyString_congr hp hq hpq]

/-! ### Memoization behaviour (C2) -/

theorem computeStylesF_default (rt : RTheme) (utils : Utils) (d : DeclData)
    (st : DeclState) (vars : Props) :
    computeStylesF rt utils d st (some { theme := none, vars := vars }) =
      match objLookup st.instCache (createCacheKey (some vars)) with
      | some cached => (cached, st)
      | none =>
        (uncachedCompute d vars,
         { st with
            instCache :=
              objSet st.instCache (createCacheKey (some vars)) (uncachedCompute d vars) }) := by
  cases hsrc : d.src <;>
    simp [computeStylesF, hsrc, uncachedCompute]

/-- C2: two invocations of a declaration's `computeStyles` whose selections
are observationally equal — the same set of axis-to-defined-value pairs, in
any key order, with `undefined`-valued keys ignored — yield the same cache
key (the lexicographically sorted axis names joined with their stringified
values), so the second call is a cache hit: it returns the very style object
the first call produced and leaves the caches untouched. -/
theorem claim_C2 (rt : RTheme) (utils : Utils) (d : DeclData) (st : DeclState)
    (p1 p2 : Props)
    (hp1 : (p1.map Prod.fst).Nodup) (hp2 : (p2.map Prod.fst).Nodup)
    (hpq : List.Perm (definedProps p1) (definedProps p2)) :
    computeStylesF rt utils d
        (computeStylesF rt utils d st (some { theme := none, vars := p1 })).2
        (some { theme := none, vars := p2 }) =
      computeStylesF rt utils d st (some { theme := none, vars := p1 }) := by
  have hkey : createCacheKey (some p2) = createCacheKey (some p1) :=
    createCacheKey_congr hp2 hp1 hpq.symm
  rw [computeStylesF_default rt utils d st p1]
  cases h : objLookup st.instCache (createCacheKey (some p1)) with
  | some cached =>
    rw [computeStylesF_default, hkey, h]
  | none =>
    rw [computeStylesF_default, hkey]
    simp [objLookup_objSet]

theorem claim_C2_witness :
    computeStylesF sampleTheme [] sampleDecl
        (computeStylesF sampleTheme [] sampleDecl DeclState.empty
          (some { theme := none,
                  vars := [("square", JVal.boolean true), ("size", JVal.str "lg")] })).2
        (some { theme := none,
                vars := [("size", JVal.str "lg"), ("pad", JVal.undef),
                         ("square", JVal.boolean true)] }) =
      computeStylesF sampleTheme [] sampleDecl DeclState.empty
        (some { theme := none,
                vars := [("square", JVal.boolean true), ("size", JVal.str "lg")] }) :=
  claim_C2 sampleTheme [] sampleDecl DeclState.empty
    [("square", JVal.boolean true), ("size", JVal.str "lg")]
    [("size", JVal.str "lg"), ("pad", JVal.undef), ("square", JVal.boolean true)]
    (by decide) (by decide) (by decide)

/-! ### Default resolution (C4) -/

theorem resolveProps_cons (dflt : List (String × JVal)) (kv : String × JVal)
    (p : Props) :
    resolveProps dflt (kv :: p) =
      resolveProps (if kv.2 ≠ JVal.undef then objSet dflt kv.1 kv.2 else dflt) p := by
  unfold resolveProps
  rw [List.foldl_cons]

theorem resolvePropsOverride_cons (dflt : List (String × JVal))
    (kv : String × JVal) (p : Props) :
    resolvePropsOverride dflt (kv :: p) =
      resolvePropsOverride
        (if kv.2 ≠ JVal.undef ∧ kv.1 ≠ "theme" then objSet dflt kv.1 kv.2 else dflt)
        p := by
  unfold resolvePropsOverride
  rw [List.foldl_cons]

theorem definedProps_cons (kv : String × JVal) (p : Props) :
    definedProps (kv :: p) =
      if kv.2 ≠ JVal.undef then kv :: definedProps p else definedProps p := by
  unfold definedProps
  rw [List.filter_cons]
  by_cases h : kv.2 = JVal.undef <;> simp [h]

theorem objLookup_resolveProps {p : Props} (hp : (p.map Prod.fst).Nodup)
    (dflt : List (String × JVal)) (k : String) :
    objLookup (resolveProps dflt p) k =
      match objLookup p k with
      | some v => if v ≠ JVal.undef then some v else objLookup dflt k
      | none => objLookup dflt k := by
  induction p generalizing dflt with
  | nil => rfl
  | cons kv p ih =>
    obtain ⟨k1, v1⟩ := kv
    simp only [List.map_cons, List.nodup_cons] at hp
    rw [resolveProps_cons, ih hp.2]
    by_cases hk : k1 = k
    · subst hk
      have hpn : objLookup p k1 = none :=
        (objLookup_eq_none_iff p k1).2 hp.1
      rw [hpn]
      by_cases h : v1 = JVal.undef
      · simp [objLookup, h]
      · simp [objLookup, h, objLookup_objSet]
    · have hd2 : objLookup
          (if (k1, v1).2 ≠ JVal.undef then objSet dflt (k1, v1).1 (k1, v1).2 else dflt) k =
          objLookup dflt k := by
        by_cases h1 : v1 = JVal.undef <;> simp [h1, objLookup_objSet, hk]
      have hl : objLookup ((k1, v1) :: p) k = objLookup p k := by
        simp [objLookup, hk]
      rw [hd2, hl]

theorem resolveProps_definedProps (dflt : List (String × JVal)) (p : Props) :
    resolveProps dflt (definedProps p) = resolveProps dflt p := by
  induction p generalizing dflt with
  | nil => rfl
  | cons kv p ih =>
    rw [definedProps_cons, resolveProps_cons]
    by_cases h : kv.2 = JVal.undef
    · have h1 : ¬ kv.2 ≠ JVal.undef := not_not_intro h
      rw [if_neg h1, if_neg h1, ih]
    · rw [if_pos h, resolveProps_cons, if_pos h, ih]

theorem resolvePropsOverride_definedProps (dflt : List (String × JVal)) (p : Props) :
    resolvePropsOverride dflt (definedProps p) = resolvePropsOverride dflt p := by
  induction p generalizing dflt with
  | nil => rfl
  | cons kv p ih =>
    rw [definedProps_cons, resolvePropsOverride_cons]
    by_cases h : kv.2 = JVal.undef
    · have h1 : ¬ kv.2 ≠ JVal.undef := not_not_intro h
      have h2 : ¬ (kv.2 ≠ JVal.undef ∧ kv.1 ≠ "theme") := fun hc => hc.1 h
      rw [if_neg h1, if_neg h2, ih]
    · rw [if_pos h, resolvePropsOverride_cons, ih]

theorem nodupKeys_definedProps {p : Props} (hp : (p.map Prod.fst).Nodup) :
    ((definedProps p).map Prod.fst).Nodup :=
  hp.sublist ((List.filter_sublist p).map Prod.fst)

theorem definedProps_idem (p : Props) :
    definedProps (definedProps p) = definedProps p := by
  unfold definedProps
  rw [List.filter_filter]
  refine List.filter_congr fun kv _ => ?_
  cases h : decide (kv.2 ≠ JVal.undef) <;> simp [h]

theorem createCacheKey_definedProps {p : Props} (hp : (p.map Prod.fst).Nodup) :
    createCacheKey (some (definedProps p)) = createCacheKey (some p) :=
  createCacheKey_congr (nodupKeys_definedProps hp) hp
    (by rw [definedProps_idem])

theorem computeStylesF_src_static (rt : RTheme) (utils : Utils) (d : DeclData)
    {c : ConfigU} (hsrc : d.src = ConfigSrc.static c) (st : DeclState)
    (t : Option OverrideObj) (vars : Props) :
    computeStylesF rt utils d st (some { theme := t, vars := vars }) =
      match objLookup st.instCache (createCacheKey (some vars)) with
      | some cached => (cached, st)
      | none =>
        (uncachedCompute d vars,
         { st with
            instCache :=
              objSet st.instCache (createCacheKey (some vars)) (uncachedCompute d vars) }) := by
  cases t <;> simp [computeStylesF, hsrc, uncachedCompute]

theorem computeStylesF_src_factory (rt : RTheme) (utils : Utils) (d : DeclData)
    {f : RTheme → ConfigU} (hsrc : d.src = ConfigSrc.factory f) (st : DeclState)
    (ov : OverrideObj) (vars : Props) :
    computeStylesF rt utils d st (some { theme := some ov, vars := vars }) =
      match (objLookup st.themeCache ov.oid).bind
          (fun part => objLookup part (createCacheKey (some vars))) with
      | some cached => (cached, st)
      | none =>
        (overrideRecompute rt utils d.slots f ov vars,
         { st with
            themeCache :=
              objSet st.themeCache ov.oid
                (objSet ((objLookup st.themeCache ov.oid).getD [])
                  (createCacheKey (some vars))
                  (overrideRecompute rt utils d.slots f ov vars)) }) := by
  simp [computeStylesF, hsrc]

theorem overrideRecompute_definedProps (rt : RTheme) (utils : Utils)
    (slots : List String) (f : RTheme → ConfigU) (ov : OverrideObj) (p : Props) :
    overrideRecompute rt utils slots f ov (definedProps p) =
      overrideRecompute rt utils slots f ov p := by
  simp only [overrideRecompute]
  rw [resolvePropsOverride_definedProps]

/-- C4: the resolved selections used for variant and compound matching are
the declaration's `defaultVariants` overridden by exactly the caller's
defined axis values — an `undefined` value never erases a default — and
dropping the `undefined`-valued entries from the call leaves the resolved
selections, the cache key, and hence the entire invocation result
unchanged. -/
theorem claim_C4 (rt : RTheme) (utils : Utils) (d : DeclData) (st : DeclState)
    (t : Option OverrideObj) (p : Props) (hp : (p.map Prod.fst).Nodup) :
    (∀ k, objLookup (resolveProps d.defaultVariants p) k =
      match objLookup p k with
      | some v => if v ≠ JVal.undef then some v else objLookup d.defaultVariants k
      | none => objLookup d.defaultVariants k)
    ∧ resolveProps d.defaultVariants (definedProps p) =
        resolveProps d.defaultVariants p
    ∧ computeStylesF rt utils d st (some { theme := t, vars := definedProps p }) =
        computeStylesF rt utils d st (some { theme := t, vars := p }) := by
  refine ⟨objLookup_resolveProps hp d.defaultVariants,
    resolveProps_definedProps d.defaultVariants p, ?_⟩
  have hkey := createCacheKey_definedProps hp
  cases hsrc : d.src with
  | static c =>
    rw [computeStylesF_src_static rt utils d hsrc st t,
      computeStylesF_src_static rt utils d hsrc st t, hkey]
    unfold uncachedCompute
    rw [resolveProps_definedProps]
  | factory f =>
    cases t with
    | none =>
      rw [computeStylesF_default, computeStylesF_default, hkey]
      unfold uncachedCompute
      rw [resolveProps_definedProps]
    | some ov =>
      rw [computeStylesF_src_factory rt utils d hsrc st ov,
        computeStylesF_src_factory rt utils d hsrc st ov, hkey,
        overrideRecompute_definedProps]

theorem claim_C4_witness :
    ((∀ k, objLookup (resolveProps sampleDecl.defaultVariants
        [("size", JVal.undef), ("square", JVal.boolean true)]) k =
      match objLookup [("size", JVal.undef), ("square", JVal.boolean true)] k with
      | some v => if v ≠ JVal.undef then some v
                  else objLookup sampleDecl.defaultVariants k
      | none => objLookup sampleDecl.defaultVariants k)
    ∧ resolveProps sampleDecl.defaultVariants
        (definedProps [("size", JVal.undef), ("square", JVal.boolean true)]) =
        resolveProps sampleDecl.defaultVariants
          [("size", JVal.undef), ("square", JVal.boolean true)]
    ∧ computeStylesF sampleTheme [] sampleDecl DeclState.empty
        (some { theme := none,
                vars := definedProps [("size", JVal.undef), ("square", JVal.boolean true)] }) =
        computeStylesF sampleTheme [] sampleDecl DeclState.empty
          (some { theme := none,
                  vars := [("size", JVal.undef), ("square", JVal.boolean true)] })) :=
  claim_C4 sampleTheme [] sampleDecl DeclState.empty none
    [("size", JVal.undef), ("square", JVal.boolean true)] (by decide)

/-! ### Cache transparency (C3) -/

/-- C3 fails as stated: `createCacheKey` performs no delimiter escaping, so
the selections `{a: "x;b:y"}` and `{a: "x", b: "y"}` build the same cache key
`"a:x;b:y;"`; after the first is cached, invoking with the second serves the
first's style map, which differs from the uncached recomputation for the
second selections (whose `b = "y"` variant applies a color). -/
theorem claim_C3_counterexample :
    (computeStylesF sampleTheme [] collideDecl
        (computeStylesF sampleTheme [] collideDecl DeclState.empty
          (some { theme := none, vars := [("a", JVal.str "x;b:y")] })).2
        (some { theme := none,
                vars := [("a", JVal.str "x"), ("b", JVal.str "y")] })).1 ≠
      uncachedCompute collideDecl [("a", JVal.str "x"), ("b", JVal.str "y")] := by
  decide

/-- C3 (amended): provided the cache key determines the computed result —
which holds whenever distinct selections cannot collide on a key, e.g. when
axis names and stringified values avoid the `:` and `;` delimiters — a
default-path invocation from any coherent cache state returns exactly the
uncached recomputation over the declaration's expanded configuration and the
resolved selections, and coherence is preserved; the empty cache state is
coherent, so repeated invocation always yields identical content. -/
theorem claim_C3_amended (rt : RTheme) (utils : Utils) (d : DeclData)
    (st : DeclState) (vars : Props) (hKD : KeyDeterminesResult d)
    (hInv : CacheInv d st) :
    (computeStylesF rt utils d st (some { theme := none, vars := vars })).1 =
      uncachedCompute d vars
    ∧ CacheInv d (computeStylesF rt utils d st (some { theme := none, vars := vars })).2
    ∧ CacheInv d DeclState.empty := by
  rw [computeStylesF_default]
  cases h : objLookup st.instCache (createCacheKey (some vars)) with
  | some cached =>
    obtain ⟨p, hp1, hp2⟩ := hInv _ _ h
    refine ⟨?_, ?_, fun k r hr => nomatch hr⟩
    · show cached = uncachedCompute d vars
      rw [← hp2]
      exact hKD p vars hp1
    · show CacheInv d st
      exact hInv
  | none =>
    refine ⟨rfl, ?_, fun k r hr => nomatch hr⟩
    intro k r hkr
    have hkr2 : objLookup
        (objSet st.instCache (createCacheKey (some vars)) (uncachedCompute d vars)) k =
        some r := hkr
    rw [objLookup_objSet] at hkr2
    by_cases hk : createCacheKey (some vars) = k
    · rw [if_pos hk] at hkr2
      cases hkr2
      exact ⟨vars, hk, rfl⟩
    · rw [if_neg hk] at hkr2
      exact hInv k r hkr2

theorem claim_C3_amended_witness :
    ((computeStylesF sampleTheme [] constDecl DeclState.empty
        (some { theme := none, vars := [("size", JVal.str "lg")] })).1 =
      uncachedCompute constDecl [("size", JVal.str "lg")]
    ∧ CacheInv constDecl
        (computeStylesF sampleTheme [] constDecl DeclState.empty
          (some { theme := none, vars := [("size", JVal.str "lg")] })).2
    ∧ CacheInv constDecl DeclState.empty) :=
  claim_C3_amended sampleTheme [] constDecl DeclState.empty
    [("size", JVal.str "lg")] (fun _ _ _ => rfl) (fun _ _ hr => nomatch hr)

/-! ### Normalization equivalence (C5) -/

theorem normalizeVariantValue_eq_jsString (v : JVal) :
    normalizeVariantValue v = jsString v := by
  cases v <;> rfl

theorem selEquiv_refl (v : JVal) : selEquiv v v :=
  ⟨Iff.rfl, rfl⟩

theorem entryEquiv_refl (kv : String × JVal) : entryEquiv kv kv :=
  ⟨rfl, selEquiv_refl kv.2⟩

theorem forall2_entryEquiv_refl (l : Props) : List.Forall₂ entryEquiv l l := by
  induction l with
  | nil => exact List.Forall₂.nil
  | cons kv l ih => exact List.Forall₂.cons (entryEquiv_refl kv) ih

theorem boolAsString_selEquiv (v : JVal) : selEquiv (boolAsString v) v := by
  cases v with
  | boolean b => cases b <;> exact ⟨by simp [boolAsString], rfl⟩
  | str s => exact selEquiv_refl _
  | num n => exact selEquiv_refl _
  | undef => exact selEquiv_refl _

theorem objLookup_forall2 {p q : Props} (h : List.Forall₂ entryEquiv p q)
    (k : String) : selEquivO (objLookup p k) (objLookup q k) := by
  induction h with
  | nil => trivial
  | @cons a b l1 l2 hab hl ih =>
    obtain ⟨hk, hv⟩ := hab
    by_cases hkk : a.1 = k
    · have hkk2 : b.1 = k := hk ▸ hkk
      simp only [objLookup, hkk, hkk2, if_pos]
      exact hv
    · have hkk2 : ¬ b.1 = k := hk ▸ hkk
      simpa only [objLookup, hkk, hkk2, if_neg] using ih

theorem objSet_forall2 {m1 m2 : Props} (h : List.Forall₂ entryEquiv m1 m2)
    (k : String) {v w : JVal} (hvw : selEquiv v w) :
    List.Forall₂ entryEquiv (objSet m1 k v) (objSet m2 k w) := by
  induction h with
  | nil => exact List.Forall₂.cons ⟨rfl, hvw⟩ List.Forall₂.nil
  | @cons a b l1 l2 hab hl ih =>
    obtain ⟨hk, hv⟩ := hab
    by_cases hkk : a.1 = k
    · have hkk2 : b.1 = k := hk ▸ hkk
      simp only [objSet, hkk, hkk2, if_pos]
      exact List.Forall₂.cons ⟨rfl, hvw⟩ hl
    · have hkk2 : ¬ b.1 = k := hk ▸ hkk
      simp only [objSet, hkk, hkk2, if_neg]
      exact List.Forall₂.cons ⟨hk, hv⟩ ih

theorem resolveProps_forall2 {d1 d2 : List (String × JVal)} {p q : Props}
    (hd : List.Forall₂ entryEquiv d1 d2) (hp : List.Forall₂ entryEquiv p q) :
    List.Forall₂ entryEquiv (resolveProps d1 p) (resolveProps d2 q) := by
  induction hp generalizing d1 d2 with
  | nil => exact hd
  | @cons a b l1 l2 hab hl ih =>
    obtain ⟨hk, hveq⟩ := hab
    rw [resolveProps_cons, resolveProps_cons]
    by_cases hu : a.2 = JVal.undef
    · have hu2 : b.2 = JVal.undef := hveq.1.mp hu
      rw [if_neg (not_not_intro hu), if_neg (not_not_intro hu2)]
      exact ih hd
    · have hu2 : ¬ b.2 = JVal.undef := fun hb => hu (hveq.1.mpr hb)
      rw [if_pos hu, if_pos hu2, ← hk]
      exact ih (objSet_forall2 hd a.1 hveq)

theorem resolvePropsOverride_forall2 {d1 d2 : List (String × JVal)} {p q : Props}
    (hd : List.Forall₂ entryEquiv d1 d2) (hp : List.Forall₂ entryEquiv p q) :
    List.Forall₂ entryEquiv (resolvePropsOverride d1 p) (resolvePropsOverride d2 q) := by
  induction hp generalizing d1 d2 with
  | nil => exact hd
  | @cons a b l1 l2 hab hl ih =>
    obtain ⟨hk, hveq⟩ := hab
    rw [resolvePropsOverride_cons, resolvePropsOverride_cons]
    by_cases hc : a.2 ≠ JVal.undef ∧ a.1 ≠ "theme"
    · have hc2 : b.2 ≠ JVal.undef ∧ b.1 ≠ "theme" :=
        ⟨fun hb => hc.1 (hveq.1.mpr hb), hk ▸ hc.2⟩
      rw [if_pos hc, if_pos hc2, ← hk]
      exact ih (objSet_forall2 hd a.1 hveq)
    · have hc2 : ¬ (b.2 ≠ JVal.undef ∧ b.1 ≠ "theme") := by
        intro hb
        exact hc ⟨fun ha => hb.1 (hveq.1.mp ha), hk ▸ hb.2⟩
      rw [if_neg hc, if_neg hc2]
      exact ih hd

theorem applyVariant_forall2 {r1 r2 : Props} (h : List.Forall₂ entryEquiv r1 r2)
    (slot : String) (variants : VariantsT) :
    applyVariant slot variants r1 = applyVariant slot variants r2 := by
  unfold applyVariant
  congr 1
  funext s vc
  have hrel := objLookup_forall2 h vc.1
  cases h1 : objLookup r1 vc.1 with
  | none =>
    cases h2 : objLookup r2 vc.1 with
    | none => rfl
    | some w => rw [h1, h2] at hrel; exact absurd hrel (by simp [selEquivO])
  | some v =>
    cases h2 : objLookup r2 vc.1 with
    | none => rw [h1, h2] at hrel; exact absurd hrel (by simp [selEquivO])
    | some w =>
      rw [h1, h2] at hrel
      obtain ⟨hiff, hstr⟩ := hrel
      by_cases hu : v = JVal.undef
      · have hu2 : w = JVal.undef := hiff.mp hu
        simp [hu, hu2]
      · have hu2 : ¬ w = JVal.undef := fun hb => hu (hiff.mpr hb)
        have hnorm : normalizeVariantValue v = normalizeVariantValue w := by
          rw [normalizeVariantValue_eq_jsString, normalizeVariantValue_eq_jsString, hstr]
        simp only [hu, hu2, ite_false]
        rw [hnorm]

theorem compoundMatches_forall2 {r1 r2 : Props} (h : List.Forall₂ entryEquiv r1 r2)
    (cv : CompoundV) : compoundMatches cv r1 = compoundMatches cv r2 := by
  unfold compoundMatches
  congr 1
  funext c
  have hrel := objLookup_forall2 h c.1
  cases h1 : objLookup r1 c.1 with
  | none =>
    cases h2 : objLookup r2 c.1 with
    | none => rfl
    | some w => rw [h1, h2] at hrel; exact absurd hrel (by simp [selEquivO])
  | some v =>
    cases h2 : objLookup r2 c.1 with
    | none => rw [h1, h2] at hrel; exact absurd hrel (by simp [selEquivO])
    | some w =>
      rw [h1, h2] at hrel
      have hnorm : normalizeVariantValue v = normalizeVariantValue w := by
        rw [normalizeVariantValue_eq_jsString, normalizeVariantValue_eq_jsString, hrel.2]
      simp [hnorm]

theorem applyCompound_forall2 {r1 r2 : Props} (h : List.Forall₂ entryEquiv r1 r2)
    (slot : String) (cvs : List CompoundV) :
    applyCompound slot cvs r1 = applyCompound slot cvs r2 := by
  unfold applyCompound
  congr 1
  funext s cv
  rw [compoundMatches_forall2 h cv]

theorem computeSlotStyles_forall2 {r1 r2 : Props}
    (h : List.Forall₂ entryEquiv r1 r2) (slot : String) (base : SlotStyles)
    (variants : VariantsT) (cvs : List CompoundV) :
    computeSlotStyles slot base variants cvs r1 =
      computeSlotStyles slot base variants cvs r2 := by
  unfold computeSlotStyles
  rw [applyVariant_forall2 h, applyCompound_forall2 h]

theorem slotResults_forall2 {r1 r2 : Props} (h : List.Forall₂ entryEquiv r1 r2)
    (slots : List String) (base : SlotStyles) (variants : VariantsT)
    (cvs : List CompoundV) :
    slotResults slots base variants cvs r1 = slotResults slots base variants cvs r2 := by
  unfold slotResults
  congr 1
  funext res slot
  rw [computeSlotStyles_forall2 h]

theorem uncachedCompute_forall2 {p q : Props} (h : List.Forall₂ entryEquiv p q)
    (d : DeclData) : uncachedCompute d p = uncachedCompute d q := by
  unfold uncachedCompute
  exact slotResults_forall2 (resolveProps_forall2 (forall2_entryEquiv_refl _) h) _ _ _ _

theorem overrideRecompute_forall2 {p q : Props} (h : List.Forall₂ entryEquiv p q)
    (rt : RTheme) (utils : Utils) (slots : List String) (f : RTheme → ConfigU)
    (ov : OverrideObj) :
    overrideRecompute rt utils slots f ov p = overrideRecompute rt utils slots f ov q := by
  simp only [overrideRecompute]
  rw [slotResults_forall2
    (resolvePropsOverride_forall2 (forall2_entryEquiv_refl _) h) slots]

theorem keys_forall2 {p q : Props} (h : List.Forall₂ entryEquiv p q) :
    p.map Prod.fst = q.map Prod.fst := by
  induction h with
  | nil => rfl
  | @cons a b l1 l2 hab hl ih => simp [hab.1, ih]

theorem definedIn_forall2 {p q : Props} (h : List.Forall₂ entryEquiv p q)
    (k : String) : definedIn p k = definedIn q k := by
  unfold definedIn
  have hrel := objLookup_forall2 h k
  cases h1 : objLookup p k with
  | none =>
    cases h2 : objLookup q k with
    | none => rfl
    | some w => rw [h1, h2] at hrel; exact absurd hrel (by simp [selEquivO])
  | some v =>
    cases h2 : objLookup q k with
    | none => rw [h1, h2] at hrel; exact absurd hrel (by simp [selEquivO])
    | some w =>
      rw [h1, h2] at hrel
      simp only []
      by_cases hu : v = JVal.undef
      · have hu2 : w = JVal.undef := hrel.1.mp hu
        simp [hu, hu2]
      · have hu2 : ¬ w = JVal.undef := fun hb => hu (hrel.1.mpr hb)
        simp [hu, hu2]

theorem entryStr_forall2 {p q : Props} (h : List.Forall₂ entryEquiv p q)
    (k : String) : entryStr p k = entryStr q k := by
  unfold entryStr
  have hrel := objLookup_forall2 h k
  cases h1 : objLookup p k with
  | none =>
    cases h2 : objLookup q k with
    | none => rfl
    | some w => rw [h1, h2] at hrel; exact absurd hrel (by simp [selEquivO])
  | some v =>
    cases h2 : objLookup q k with
    | none => rw [h1, h2] at hrel; exact absurd hrel (by simp [selEquivO])
    | some w =>
      rw [h1, h2] at hrel
      by_cases hu : v = JVal.undef
      · have hu2 : w = JVal.undef := hrel.1.mp hu
        simp [hu, hu2]
      · have hu2 : ¬ w = JVal.undef := fun hb => hu (hrel.1.mpr hb)
        simp only [ne_eq, hu, hu2, not_false_eq_true, ite_true]
        rw [hrel.2]

theorem keyString_forall2 {p q : Props} (h : List.Forall₂ entryEquiv p q) :
    keyString p = keyString q := by
  unfold keyString
  rw [keys_forall2 h]
  rw [List.filter_congr fun k _ => definedIn_forall2 h k]
  exact congrArg strJoin (List.map_congr_left fun k _ => entryStr_forall2 h k)

theorem createCacheKey_forall2 {p q : Props} (h : List.Forall₂ entryEquiv p q) :
    createCacheKey (some p) = createCacheKey (some q) := by
  rw [createCacheKey_eq_keyString, createCacheKey_eq_keyString, keyString_forall2 h]

theorem computeStylesF_forall2 {p q : Props} (h : List.Forall₂ entryEquiv p q)
    (rt : RTheme) (utils : Utils) (d : DeclData) (st : DeclState)
    (t : Option OverrideObj) :
    computeStylesF rt utils d st (some { theme := t, vars := p }) =
      computeStylesF rt utils d st (some { theme := t, vars := q }) := by
  cases hsrc : d.src with
  | static c =>
    rw [computeStylesF_src_static rt utils d hsrc st t,
      computeStylesF_src_static rt utils d hsrc st t,
      createCacheKey_forall2 h, uncachedCompute_forall2 h]
  | factory f =>
    cases t with
    | none =>
      rw [computeStylesF_default, computeStylesF_default,
        createCacheKey_forall2 h, uncachedCompute_forall2 h]
    | some ov =>
      rw [computeStylesF_src_factory rt utils d hsrc st ov,
        computeStylesF_src_factory rt utils d hsrc st ov,
        createCacheKey_forall2 h, overrideRecompute_forall2 h]

/-- C5: replacing any boolean selection value by its `"true"`/`"false"`
string label — in particular invoking a boolean-style axis with `true`
instead of `"true"`, or `false` instead of `"false"` — leaves the entire
invocation identical: variant lookup, compound-condition matching, and the
cache key all normalize booleans to those labels. -/
theorem claim_C5 (rt : RTheme) (utils : Utils) (d : DeclData) (st : DeclState)
    (t : Option OverrideObj) (p : Props) :
    computeStylesF rt utils d st
        (some { theme := t, vars := p.map fun kv => (kv.1, boolAsString kv.2) }) =
      computeStylesF rt utils d st (some { theme := t, vars := p }) := by
  refine computeStylesF_forall2 ?_ rt utils d st t
  induction p with
  | nil => exact List.Forall₂.nil
  | cons kv l ih => exact List.Forall₂.cons ⟨rfl, boolAsString_selEquiv kv.2⟩ ih

/-! ### Utility expansion (C6) -/

theorem expandUtils_eq_chunks (s : Styles) (utils : Utils) :
    expandUtils (some s) utils =
      s.foldl (fun res kv => mergeObj res (expandEntry utils kv)) [] := by
  have h0 : expandUtils (some s) utils =
      s.foldl
        (fun result kv =>
          match objLookup utils kv.1 with
          | some utilFn => mergeObj result (utilFn kv.2)
          | none => objSet result kv.1 kv.2)
        [] := rfl
  rw [h0]
  congr 1
  funext res kv
  unfold expandEntry
  cases h : objLookup utils kv.1 with
  | some utilFn => simp [h]
  | none => simp [h, mergeObj]

theorem foldl_merge_join {α : Type} (chunk : α → Styles) (L : List α) :
    ∀ acc : Styles,
      L.foldl (fun res x => mergeObj res (chunk x)) acc =
        mergeObj acc (L.map chunk).flatten := by
  induction L with
  | nil => intro acc; exact (mergeObj_nil_right acc).symm
  | cons x L ih =>
    intro acc
    rw [List.foldl_cons, ih (mergeObj acc (chunk x)), List.map_cons,
      List.flatten_cons, mergeObj_append]

theorem objSet_append_of_not_mem {α : Type} {m : List (String × α)} {k : String}
    (h : k ∉ m.map Prod.fst) (v : α) : objSet m k v = m ++ [(k, v)] := by
  induction m with
  | nil => rfl
  | cons kv m ih =>
    simp only [List.map_cons, List.mem_cons, not_or] at h
    have hne : ¬ kv.1 = k := fun hh => h.1 hh.symm
    simp [objSet, hne, ih h.2]

theorem mergeObj_disjoint_append {s : Styles} :
    ∀ {acc : Styles}, (∀ k ∈ s.map Prod.fst, k ∉ acc.map Prod.fst) →
      (s.map Prod.fst).Nodup → mergeObj acc s = acc ++ s := by
  induction s with
  | nil => intro acc _ _; simp [mergeObj_nil_right]
  | cons kv s ih =>
    intro acc hdisj hnod
    simp only [List.map_cons, List.nodup_cons] at hnod
    rw [mergeObj_cons,
      objSet_append_of_not_mem (hdisj kv.1 (by simp)) kv.2,
      ih ?_ hnod.2]
    · simp
    · intro k hk
      simp only [List.map_append, List.mem_append, List.map_cons, not_or]
      refine ⟨hdisj k (by simp [hk]), ?_⟩
      simp only [List.map_nil, List.mem_cons, List.not_mem_nil, or_false]
      rintro rfl
      exact hnod.1 hk

theorem mergeObj_nil_of_nodup {s : Styles} (h : (s.map Prod.fst).Nodup) :
    mergeObj [] s = s := by
  rw [mergeObj_disjoint_append (by simp) h]
  rfl

theorem join_map_singleton (s : Styles) : (s.map fun kv => [kv]).flatten = s := by
  induction s with
  | nil => rfl
  | cons kv s ih => simp [ih]

/-- C6: expansion replaces each style entry, at its original iteration
position, by the util's output when the key names a util-table entry (the
macro key itself never survives) and by the entry itself otherwise, and
shallow-assigns the concatenation left to right; a util's output is inserted
as-is, never re-expanded; an absent style map expands to empty; and a style
map with unique keys none of which names a util is returned unchanged. -/
theorem claim_C6 (s : Styles) (utils : Utils) :
    expandUtils (some s) utils = mergeObj [] (s.map (expandEntry utils)).flatten
    ∧ expandUtils none utils = []
    ∧ ((s.map Prod.fst).Nodup → (∀ kv ∈ s, objLookup utils kv.1 = none) →
        expandUtils (some s) utils = s) := by
  refine ⟨by rw [expandUtils_eq_chunks, foldl_merge_join], rfl, ?_⟩
  intro hnod hno
  rw [expandUtils_eq_chunks, foldl_merge_join]
  have hmap : s.map (expandEntry utils) = s.map fun kv => [kv] :=
    List.map_congr_left fun kv hkv => by
      unfold expandEntry
      rw [hno kv hkv]
  rw [hmap, join_map_singleton, mergeObj_nil_of_nodup hnod]

theorem claim_C6_witness :
    expandUtils (some [("margin", JVal.num 4), ("color", JVal.str "red")]) pxUtils =
      [("margin", JVal.num 4), ("color", JVal.str "red")] :=
  (claim_C6 [("margin", JVal.num 4), ("color", JVal.str "red")] pxUtils).2.2
    (by decide)
    (by
      intro kv hkv
      simp only [List.mem_cons, List.not_mem_nil, or_false] at hkv
      rcases hkv with rfl | rfl <;> rfl)

/-! ### Theme-override recomputation and caching (C7) -/

theorem computeStylesF_factory_hit (rt : RTheme) (utils : Utils) (d : DeclData)
    {f : RTheme → ConfigU} (hsrc : d.src = ConfigSrc.factory f) (st : DeclState)
    (ov : OverrideObj) (vars : Props) {r : SlotStyles}
    (h : (objLookup st.themeCache ov.oid).bind
      (fun part => objLookup part (createCacheKey (some vars))) = some r) :
    computeStylesF rt utils d st (some { theme := some ov, vars := vars }) = (r, st) := by
  rw [computeStylesF_src_factory rt utils d hsrc st ov vars, h]

/-- C7: for a factory declaration invoked with a color-map override, (a) a
miss on the (override identity, normalized selection key) pair re-evaluates
the factory against the resolved theme with its `colors` replaced by the
override — then re-expands utils and re-resolves the selections — and caches
the result under that pair; (b) a repeat call with the same override object
and observationally equal selections returns the cached result and leaves
the state untouched; (c) an override object of unseen identity is a cache
miss recomputed afresh, regardless of what is cached under other identities,
even ones holding equal color contents. -/
theorem claim_C7 (rt : RTheme) (utils : Utils) (d : DeclData) (st : DeclState)
    {f : RTheme → ConfigU} (hsrc : d.src = ConfigSrc.factory f)
    (ov ov2 : OverrideObj) (p1 p2 vars : Props)
    (hp1 : (p1.map Prod.fst).Nodup) (hp2 : (p2.map Prod.fst).Nodup)
    (hperm : List.Perm (definedProps p1) (definedProps p2)) :
    ((objLookup st.themeCache ov.oid).bind
        (fun part => objLookup part (createCacheKey (some vars))) = none →
      computeStylesF rt utils d st (some { theme := some ov, vars := vars }) =
        (overrideRecompute rt utils d.slots f ov vars,
         { st with
            themeCache :=
              objSet st.themeCache ov.oid
                (objSet ((objLookup st.themeCache ov.oid).getD [])
                  (createCacheKey (some vars))
                  (overrideRecompute rt utils d.slots f ov vars)) }))
    ∧ computeStylesF rt utils d
        (computeStylesF rt utils d st (some { theme := some ov, vars := p1 })).2
        (some { theme := some ov, vars := p2 }) =
      computeStylesF rt utils d st (some { theme := some ov, vars := p1 })
    ∧ (objLookup st.themeCache ov2.oid = none →
      (computeStylesF rt utils d st (some { theme := some ov2, vars := vars })).1 =
        overrideRecompute rt utils d.slots f ov2 vars) := by
  refine ⟨?_, ?_, ?_⟩
  · intro hmiss
    rw [computeStylesF_src_factory rt utils d hsrc st ov vars, hmiss]
  · have hkey : createCacheKey (some p2) = createCacheKey (some p1) :=
      createCacheKey_congr hp2 hp1 hperm.symm
    rw [computeStylesF_src_factory rt utils d hsrc st ov p1]
    cases h : (objLookup st.themeCache ov.oid).bind
        (fun part => objLookup part (createCacheKey (some p1))) with
    | some cached =>
      show computeStylesF rt utils d st (some { theme := some ov, vars := p2 }) =
        (cached, st)
      exact computeStylesF_factory_hit rt utils d hsrc st ov p2 (by rw [hkey]; exact h)
    | none =>
      show computeStylesF rt utils d
          { st with
              themeCache :=
                objSet st.themeCache ov.oid
                  (objSet ((objLookup st.themeCache ov.oid).getD [])
                    (createCacheKey (some p1))
                    (overrideRecompute rt utils d.slots f ov p1)) }
          (some { theme := some ov, vars := p2 }) =
        (overrideRecompute rt utils d.slots f ov p1,
         { st with
            themeCache :=
              objSet st.themeCache ov.oid
                (objSet ((objLookup st.themeCache ov.oid).getD [])
                  (createCacheKey (some p1))
                  (overrideRecompute rt utils d.slots f ov p1)) })
      refine computeStylesF_factory_hit rt utils d hsrc _ ov p2 ?_
      show (objLookup
          (objSet st.themeCache ov.oid
            (objSet ((objLookup st.themeCache ov.oid).getD [])
              (createCacheKey (some p1))
              (overrideRecompute rt utils d.slots f ov p1))) ov.oid).bind
          (fun part => objLookup part (createCacheKey (some p2))) =
        some (overrideRecompute rt utils d.slots f ov p1)
      rw [hkey, objLookup_objSet, if_pos rfl, Option.some_bind,
        objLookup_objSet, if_pos rfl]
  · intro hm
    rw [computeStylesF_src_factory rt utils d hsrc st ov2 vars, hm]
    rfl

theorem claim_C7_witness :
    (computeStylesF sampleTheme [] factoryDecl DeclState.empty
        (some { theme := some { oid := 1, colors := [("primary", JVal.str "#f00")] },
                vars := [] }) =
      (overrideRecompute sampleTheme [] factoryDecl.slots sampleFactory
          { oid := 1, colors := [("primary", JVal.str "#f00")] } [],
       { DeclState.empty with
          themeCache :=
            objSet DeclState.empty.themeCache 1
              (objSet ((objLookup DeclState.empty.themeCache 1).getD [])
                (createCacheKey (some []))
                (overrideRecompute sampleTheme [] factoryDecl.slots sampleFactory
                  { oid := 1, colors := [("primary", JVal.str "#f00")] } [])) }))
    ∧ computeStylesF sampleTheme [] factoryDecl
        (computeStylesF sampleTheme [] factoryDecl DeclState.empty
          (some { theme := some { oid := 1, colors := [("primary", JVal.str "#f00")] },
                  vars := [("size", JVal.str "lg"), ("square", JVal.boolean true)] })).2
        (some { theme := some { oid := 1, colors := [("primary", JVal.str "#f00")] },
                vars := [("square", JVal.boolean true), ("size", JVal.str "lg")] }) =
      computeStylesF sampleTheme [] factoryDecl DeclState.empty
        (some { theme := some { oid := 1, colors := [("primary", JVal.str "#f00")] },
                vars := [("size", JVal.str "lg"), ("square", JVal.boolean true)] })
    ∧ (computeStylesF sampleTheme [] factoryDecl DeclState.empty
        (some { theme := some { oid := 2, colors := [("primary", JVal.str "#f00")] },
                vars := [] })).1 =
      overrideRecompute sampleTheme [] factoryDecl.slots sampleFactory
        { oid := 2, colors := [("primary", JVal.str "#f00")] } [] := by
  have h := claim_C7 sampleTheme [] factoryDecl DeclState.empty rfl
    { oid := 1, colors := [("primary", JVal.str "#f00")] }
    { oid := 2, colors := [("primary", JVal.str "#f00")] }
    [("size", JVal.str "lg"), ("square", JVal.boolean true)]
    [("square", JVal.boolean true), ("size", JVal.str "lg")]
    [] (by decide) (by decide) (by decide)
  exact ⟨h.1 (by decide), h.2.1, h.2.2 (by decide)⟩

/-! ### Cache clearing (C9) -/

/-- C9: `clearStyleCache` is a total function that empties only the
string-keyed `primitiveCache` partition and leaves every identity-keyed
per-declaration partition unchanged, so a subsequent `computeStyles` call on
an existing declaration with previously-used selections still returns its
prior cached result, with no further state change. -/
theorem claim_C9 (st : EngineState) (rt : RTheme) (utils : Utils) (d : DeclData)
    (declId : Nat) (vars : Props) (part : DeclState) (r : SlotStyles)
    (hdecl : objLookup st.decls declId = some part)
    (hhit : objLookup part.instCache (createCacheKey (some vars)) = some r) :
    (clearStyleCache st).primitiveCache = []
    ∧ (clearStyleCache st).decls = st.decls
    ∧ engineComputeStyles rt utils d declId (clearStyleCache st)
        (some { theme := none, vars := vars }) = (r, clearStyleCache st) := by
  refine ⟨rfl, rfl, ?_⟩
  have hcs : computeStylesF rt utils d part (some { theme := none, vars := vars }) =
      (r, part) := by
    rw [computeStylesF_default, hhit]
  show ((computeStylesF rt utils d
      ((objLookup st.decls declId).getD DeclState.empty)
      (some { theme := none, vars := vars })).1,
    { clearStyleCache st with
        decls := objSet st.decls declId
          (computeStylesF rt utils d
            ((objLookup st.decls declId).getD DeclState.empty)
            (some { theme := none, vars := vars })).2 }) = (r, clearStyleCache st)
  rw [hdecl, Option.getD_some, hcs, objSet_lookup_self hdecl]
  rfl

theorem claim_C9_witness :
    (clearStyleCache sampleEngineState).primitiveCache = []
    ∧ (clearStyleCache sampleEngineState).decls = sampleEngineState.decls
    ∧ engineComputeStyles sampleTheme [] sampleDecl 5
        (clearStyleCache sampleEngineState)
        (some { theme := none, vars := [("size", JVal.str "lg")] }) =
      (sampleCachedResult, clearStyleCache sampleEngineState) :=
  claim_C9 sampleEngineState sampleTheme [] sampleDecl 5
    [("size", JVal.str "lg")]
    { instCache := [("size:lg;", sampleCachedResult)], themeCache := [] }
    sampleCachedResult (by decide) (by decide)

/-! ### Result shape (C10) -/

theorem foldl_objSet_map (g : String → Styles) :
    ∀ (slots : List String) (acc : SlotStyles),
      (∀ s ∈ slots, s ∉ acc.map Prod.fst) → slots.Nodup →
      slots.foldl (fun res slot => objSet res slot (g slot)) acc =
        acc ++ slots.map fun s => (s, g s) := by
  intro slots
  induction slots with
  | nil => intro acc _ _; simp
  | cons s slots ih =>
    intro acc hdisj hnod
    simp only [List.nodup_cons] at hnod
    rw [List.foldl_cons, objSet_append_of_not_mem (hdisj s (by simp)) (g s),
      ih _ ?_ hnod.2]
    · simp
    · intro s2 hs2
      simp only [List.map_append, List.mem_append, not_or]
      refine ⟨hdisj s2 (by simp [hs2]), ?_⟩
      simp only [List.map_cons, List.map_nil, List.mem_cons, List.not_mem_nil,
        or_false]
      rintro rfl
      exact hnod.1 hs2

theorem slotResults_eq_map {slots : List String} (hnod : slots.Nodup)
    (base : SlotStyles) (variants : VariantsT) (cvs : List CompoundV)
    (rp : Props) :
    slotResults slots base variants cvs rp =
      slots.map fun s => (s, computeSlotStyles s base variants cvs rp) := by
  unfold slotResults
  rw [foldl_objSet_map (fun s => computeSlotStyles s base variants cvs rp)
    slots [] (by simp) hnod]
  rfl

theorem keys_slotResults {slots : List String} (hnod : slots.Nodup)
    (base : SlotStyles) (variants : VariantsT) (cvs : List CompoundV)
    (rp : Props) :
    (slotResults slots base variants cvs rp).map Prod.fst = slots := by
  rw [slotResults_eq_map hnod]
  rw [List.map_map]
  exact List.map_id slots

theorem keys_uncachedCompute {d : DeclData} (hslots : d.slots.Nodup)
    (vars : Props) : (uncachedCompute d vars).map Prod.fst = d.slots := by
  unfold uncachedCompute
  exact keys_slotResults hslots _ _ _ _

theorem keys_overrideRecompute (rt : RTheme) (utils : Utils)
    {slots : List String} (hslots : slots.Nodup) (f : RTheme → ConfigU)
    (ov : OverrideObj) (vars : Props) :
    (overrideRecompute rt utils slots f ov vars).map Prod.fst = slots := by
  simp only [overrideRecompute]
  exact keys_slotResults hslots _ _ _ _

/-- C10: every style object an invocation returns holds exactly one entry
per declared slot — the declaration's frozen slot list is the key list of
the result, with a slot that receives no base, variant or compound
contribution bound to an empty map — and every cached entry keeps that
shape, on the default and the theme-override path alike. -/
theorem claim_C10 (rt : RTheme) (utils : Utils) (d : DeclData) (st : DeclState)
    (t : Option OverrideObj) (vars : Props) (hslots : d.slots.Nodup)
    (hinv : SlotsInv d st) :
    ((computeStylesF rt utils d st (some { theme := t, vars := vars })).1).map
        Prod.fst = d.slots
    ∧ SlotsInv d (computeStylesF rt utils d st (some { theme := t, vars := vars })).2 := by
  have hdefault : ∀ h0 : computeStylesF rt utils d st (some { theme := t, vars := vars }) =
      (match objLookup st.instCache (createCacheKey (some vars)) with
        | some cached => (cached, st)
        | none =>
          (uncachedCompute d vars,
           { st with
              instCache :=
                objSet st.instCache (createCacheKey (some vars))
                  (uncachedCompute d vars) })),
      ((computeStylesF rt utils d st (some { theme := t, vars := vars })).1).map
          Prod.fst = d.slots
      ∧ SlotsInv d (computeStylesF rt utils d st
          (some { theme := t, vars := vars })).2 := by
    intro h0
    rw [h0]
    cases h : objLookup st.instCache (createCacheKey (some vars)) with
    | some cached => exact ⟨hinv.1 _ _ h, hinv⟩
    | none =>
      refine ⟨keys_uncachedCompute hslots vars, ?_, hinv.2⟩
      intro k r hkr
      have hkr2 : objLookup
          (objSet st.instCache (createCacheKey (some vars)) (uncachedCompute d vars))
          k = some r := hkr
      rw [objLookup_objSet] at hkr2
      by_cases hk : createCacheKey (some vars) = k
      · rw [if_pos hk] at hkr2
        cases hkr2
        exact keys_uncachedCompute hslots vars
      · rw [if_neg hk] at hkr2
        exact hinv.1 k r hkr2
  cases hsrc : d.src with
  | static c => exact hdefault (computeStylesF_src_static rt utils d hsrc st t vars)
  | factory f =>
    cases t with
    | none => exact hdefault (computeStylesF_default rt utils d st vars)
    | some ov =>
      rw [computeStylesF_src_factory rt utils d hsrc st ov vars]
      cases h : (objLookup st.themeCache ov.oid).bind
          (fun part => objLookup part (createCacheKey (some vars))) with
      | some cached =>
        refine ⟨?_, hinv⟩
        cases hpart : objLookup st.themeCache ov.oid with
        | none => rw [hpart] at h; cases h
        | some part =>
          rw [hpart, Option.some_bind] at h
          exact hinv.2 ov.oid part hpart _ _ h
      | none =>
        refine ⟨keys_overrideRecompute rt utils hslots f ov vars, hinv.1, ?_⟩
        intro i p hip k r hkr
        have hip2 : objLookup
            (objSet st.themeCache ov.oid
              (objSet ((objLookup st.themeCache ov.oid).getD [])
                (createCacheKey (some vars))
                (overrideRecompute rt utils d.slots f ov vars))) i = some p := hip
        rw [objLookup_objSet] at hip2
        by_cases hio : ov.oid = i
        · rw [if_pos hio] at hip2
          cases hip2
          rw [objLookup_objSet] at hkr
          by_cases hkk : createCacheKey (some vars) = k
          · rw [if_pos hkk] at hkr
            cases hkr
            exact keys_overrideRecompute rt utils hslots f ov vars
          · rw [if_neg hkk] at hkr
            cases hpart : objLookup st.themeCache ov.oid with
            | none =>
              rw [hpart] at hkr
              cases hkr
            | some part =>
              rw [hpart] at hkr
              exact hinv.2 ov.oid part hpart k r hkr
        · rw [if_neg hio] at hip2
          exact hinv.2 i p hip2 k r hkr

theorem claim_C10_witness :
    ((computeStylesF sampleTheme [] sampleDecl DeclState.empty
        (some { theme := none, vars := [("square", JVal.boolean true)] })).1).map
        Prod.fst = sampleDecl.slots
    ∧ SlotsInv sampleDecl
        (computeStylesF sampleTheme [] sampleDecl DeclState.empty
          (some { theme := none, vars := [("square", JVal.boolean true)] })).2 :=
  claim_C10 sampleTheme [] sampleDecl DeclState.empty none
    [("square", JVal.boolean true)] (by decide)
    (And.intro (fun k r h => nomatch h) (fun i p h => nomatch h))

/-! ### Resolved-theme merging (C8) -/

theorem objLookup_append {α : Type} (a b : List (String × α)) (k : String) :
    objLookup (a ++ b) k =
      match objLookup a k with
      | some v => some v
      | none => objLookup b k := by
  induction a with
  | nil => rfl
  | cons kv a ih =>
    by_cases hk : kv.1 = k
    · simp [objLookup, hk]
    · simp [objLookup, hk, ih]

/-- C8: the resolved theme binds every known token category (spacing,
fontSizes, radii, shadows, zIndex, opacity, lineHeights, fontWeights,
letterSpacing, borderWidths, durations) to the built-in default table merged
with the user table, with the user winning on key collision, and every
input key outside the known category set (and other than `colors`) is passed
through verbatim; merging is pure, so the default tables are never
modified. -/
theorem claim_C8 (dt : DefaultTables) (input : Option ThemeInputM) :
    (∀ c ∈ catNames, objLookup (resolvedThemeM dt input) c =
      some (mergeObj (defCat dt c) (userCat input c)))
    ∧ (∀ c ∈ catNames, ∀ k, ((userCat input c).map Prod.fst).Nodup →
        objLookup (mergeObj (defCat dt c) (userCat input c)) k =
          match objLookup (userCat input c) k with
          | some v => some v
          | none => objLookup (defCat dt c) k)
    ∧ (∀ k, k ∉ knownKeys →
        objLookup (resolvedThemeM dt input) k =
          objLookup ((input.map fun t => t.rest).getD []) k) := by
  refine ⟨?_, ?_, ?_⟩
  · intro c hc
    simp only [catNames, List.mem_cons, List.not_mem_nil, or_false] at hc
    rcases hc with rfl | rfl | rfl | rfl | rfl | rfl | rfl | rfl | rfl | rfl | rfl <;>
      rfl
  · intro c _ k hnod
    have h := objLookup_mergeObj_of_nodup (defCat dt c) hnod k
    cases hu : objLookup (userCat input c) k with
    | some v =>
      simp only [hu] at h
      rw [h]
    | none =>
      simp only [hu] at h
      rw [h]
  · intro k hk
    rw [show resolvedThemeM dt input =
        [("colors", mergeObj dt.palette (userColors (input.bind fun t => t.colors))),
         ("spacing", mergeObj dt.spacing (userCat input "spacing")),
         ("fontSizes", mergeObj dt.fontSizes (userCat input "fontSizes")),
         ("radii", mergeObj dt.radii (userCat input "radii")),
         ("shadows", mergeObj dt.shadows (userCat input "shadows")),
         ("zIndex", mergeObj dt.zIndex (userCat input "zIndex")),
         ("opacity", mergeObj dt.opacity (userCat input "opacity")),
         ("lineHeights", mergeObj dt.lineHeights (userCat input "lineHeights")),
         ("fontWeights", mergeObj dt.fontWeights (userCat input "fontWeights")),
         ("letterSpacing", mergeObj dt.letterSpacing (userCat input "letterSpacing")),
         ("borderWidths", mergeObj dt.borderWidths (userCat input "borderWidths")),
         ("durations", mergeObj dt.durations (userCat input "durations"))]
        ++ ((input.map fun t => t.rest).getD []).filter
            (fun kv => ¬ knownKeys.contains kv.1) from rfl,
      objLookup_append]
    have hpre : ∀ (ts : List (String × Table)),
        (ts.map Prod.fst).Sublist knownKeys →
        objLookup ts k = none := by
      intro ts hsub
      exact (objLookup_eq_none_iff ts k).2 fun hmem => hk (hsub.mem hmem)
    rw [hpre _ (by simp [knownKeys])]
    exact objLookup_filter fun kv hm hkk => by
      simp only [decide_eq_true_eq]
      intro hcont
      exact hk (hkk ▸ List.mem_of_elem_eq_true hcont)

theorem claim_C8_witness :
    objLookup (resolvedThemeM sampleDefaults (some sampleInput)) "spacing" =
      some (mergeObj (defCat sampleDefaults "spacing")
        (userCat (some sampleInput) "spacing"))
    ∧ (objLookup (mergeObj (defCat sampleDefaults "spacing")
        (userCat (some sampleInput) "spacing")) "md" =
      (match objLookup (userCat (some sampleInput) "spacing") "md" with
      | some v => some v
      | none => objLookup (defCat sampleDefaults "spacing") "md"))
    ∧ objLookup (resolvedThemeM sampleDefaults (some sampleInput)) "breakpoints" =
      objLookup (((some sampleInput).map fun t => t.rest).getD []) "breakpoints" :=
  ⟨(claim_C8 sampleDefaults (some sampleInput)).1 "spacing" (by decide),
   (claim_C8 sampleDefaults (some sampleInput)).2.1 "spacing" (by decide) "md"
     (by decide),
   (claim_C8 sampleDefaults (some sampleInput)).2.2 "breakpoints" (by decide)⟩

end NativeVariants
